import Mathlib

/-!
# Verification of the table-comparator reconciliation core

Shallow embedding of `src/comparator.py` (class `TableComparator`).  Tables
are modelled as pandas-style data frames: an ordered list of column names, a
declared dtype per column, and rows given positionally (one optional cell per
column, `none` standing for a null/NaN entry).  All pandas operations used by
the source (`merge`, boolean-mask filtering, column selection, positional
column renaming, `fillna`, `value_counts`) are translated to executable Lean
functions on this representation.  Exceptions raised by the Python code are
modelled with `Except`/`Option` results.
-/

set_option autoImplicit false

deriving instance DecidableEq for Except

namespace TableComparator

/-- A cell value of a pandas data frame: string, integer, or boolean.
`Option Val` is used for cells, with `none` playing the role of NaN/null. -/
inductive Val where
  | str : String → Val
  | int : Int → Val
  | bool : Bool → Val
deriving DecidableEq, Repr

/-- A data frame: ordered column names plus rows; each row stores one optional
cell per column, positionally aligned with `cols`. -/
structure DF where
  cols : List String
  rows : List (List (Option Val))
deriving DecidableEq, Repr

/-- An input table as produced by the `TableReader` collaborator: a data frame
together with a declared dtype (as a dtype name, e.g. `"int64"`) per column. -/
structure Table where
  cols : List String
  dtypes : List String
  rows : List (List (Option Val))
deriving DecidableEq, Repr

/-- Well-formedness of a loaded table (the invariant pandas guarantees for a
freshly read `DataFrame`): distinct column labels, one dtype per column, and
every row has exactly one cell slot per column. -/
def Table.WF (t : Table) : Prop :=
  t.cols.Nodup ∧ t.dtypes.length = t.cols.length ∧
    ∀ r ∈ t.rows, r.length = t.cols.length

instance (t : Table) : Decidable t.WF := by
  unfold Table.WF; infer_instance

/-- `pandas` row access `row[c]`: the cell under the first column named `c`
(walking columns and cells in parallel; `none` when the label is absent). -/
def lookupName : List String → List (Option Val) → String → Option Val
  | [], _, _ => none
  | _ :: _, [], _ => none
  | c₀ :: cs, v :: vs, c => if c₀ = c then v else lookupName cs vs c

/-- `df[cs]`: column selection by label, in the order given. -/
def selectCols (df : DF) (cs : List String) : DF :=
  ⟨cs, df.rows.map fun r => cs.map (lookupName df.cols r)⟩

/-- Substring test on character lists (Python's `needle in hay`). -/
def isSubChars (needle : List Char) : List Char → Bool
  | [] => needle.isEmpty
  | c :: rest => needle.isPrefixOf (c :: rest) || isSubChars needle rest

/-- Python's `needle in hay` for strings. -/
def isSub (needle hay : String) : Bool :=
  isSubChars needle.toList hay.toList

/-- Fuel-driven worker for `removeAll`; the fuel (the haystack length) is
enough because every step consumes at least one character. -/
def stripAllAux (needle : List Char) : Nat → List Char → List Char
  | 0, l => l
  | _ + 1, [] => []
  | fuel + 1, c :: rest =>
    if needle.isPrefixOf (c :: rest) then
      stripAllAux needle fuel ((c :: rest).drop needle.length)
    else
      c :: stripAllAux needle fuel rest

/-- Python's `s.replace(needle, "")`: delete every (left-to-right,
non-overlapping) occurrence of `needle` in `s`. -/
def removeAll (needle s : String) : String :=
  ⟨stripAllAux needle.toList s.toList.length s.toList⟩

/-- The suffix pandas appends to the left table's overlapping non-key columns
(`suffixes=["_left_table", "_right_table"]` in `join_tables`). -/
def lsuffix : String := "_left_table"

/-- The suffix appended to the right table's overlapping non-key columns. -/
def rsuffix : String := "_right_table"

/-- The primary-key tuple of a row (`df.duplicated(subset=primary_keys)` and
`merge(on=primary_keys)` both key rows by these cells). -/
def keyOf (cols pks : List String) (r : List (Option Val)) : List (Option Val) :=
  pks.map (lookupName cols r)

/-- The failure kinds of `validate_data_quality`: the first two and last two
are `assert` statements, the third is the raised `InconsistentDataTypesError`.
Its payload is the `inconsistent_dict`, as a list of entries
`(column, dtype stored under the "left_table" label, dtype stored under the
"right_table" label)` in column order. -/
inductive SchemaError where
  | columnCountMismatch
  | columnNameMismatch
  | inconsistentColumnTypes : List (String × String × String) → SchemaError
  | duplicateKeysLeft
  | duplicateKeysRight
deriving DecidableEq, Repr

/-- The `inconsistent_dict` built in `validate_data_quality` (lines 56-62).
Note the source assigns `left_inconsistent_dict` from the **right** table's
dtypes and `right_inconsistent_dict` from the **left** table's dtypes, so each
entry stores the right table's dtype under the `"left_table"` label and the
left table's dtype under the `"right_table"` label. -/
def inconsistentDict (left right : Table) : List (String × String × String) :=
  (left.cols.zip (left.dtypes.zip right.dtypes)).filterMap fun p =>
    if p.2.1 ≠ p.2.2 then some (p.1, p.2.2, p.2.1) else none

/-- `TableComparator.validate_data_quality`: column-count assert, column-name
assert, dtype consistency check (raising `InconsistentDataTypesError` with the
dictionary over every mismatching column), then per-side duplicate-key
asserts, in source order. -/
def validate_data_quality (left right : Table) (pks : List String) :
    Except SchemaError Unit :=
  if left.cols.length ≠ right.cols.length then
    .error .columnCountMismatch
  else if left.cols ≠ right.cols then
    .error .columnNameMismatch
  else if left.dtypes ≠ right.dtypes then
    .error (.inconsistentColumnTypes (inconsistentDict left right))
  else if ¬ (left.rows.map (keyOf left.cols pks)).Nodup then
    .error .duplicateKeysLeft
  else if ¬ (right.rows.map (keyOf right.cols pks)).Nodup then
    .error .duplicateKeysRight
  else
    .ok ()

/-- Non-key column names of a table, in column order. -/
def nonKeys (cols pks : List String) : List String :=
  cols.filter fun c => !decide (c ∈ pks)

/-- How `merge(..., on=pks, suffixes=["_left_table", "_right_table"])` names a
column coming from one side: join keys keep their name, every other column
(they all overlap, the schemas being identical after validation) gets the
side's suffix appended. -/
def suffixify (pks : List String) (suffix : String) (c : String) : String :=
  if c ∈ pks then c else c ++ suffix

/-- Column layout of the merged frame `self.joined`: the left table's columns
in order (keys unsuffixed, non-keys suffixed `_left_table`), then the right
table's non-key columns suffixed `_right_table`, then the `indicator=True`
column `_merge`. -/
def joinedCols (leftCols rightCols pks : List String) : List String :=
  leftCols.map (suffixify pks lsuffix)
    ++ (nonKeys rightCols pks).map (· ++ rsuffix)
    ++ ["_merge"]

/-- The non-key cells of a row, in column order. -/
def nonKeyCells (cols pks : List String) (r : List (Option Val)) :
    List (Option Val) :=
  (nonKeys cols pks).map (lookupName cols r)

/-- A merged row for a key present in both tables: the left row's cells, the
right row's non-key cells, and the indicator `both`. -/
def mkBothRow (rightCols pks : List String) (lr rr : List (Option Val)) :
    List (Option Val) :=
  lr ++ nonKeyCells rightCols pks rr ++ [some (Val.str "both")]

/-- A merged row for a key present only in the left table: right-side non-key
cells are NaN. -/
def mkLeftOnlyRow (rightCols pks : List String) (lr : List (Option Val)) :
    List (Option Val) :=
  lr ++ (nonKeys rightCols pks).map (fun _ => none) ++ [some (Val.str "left_only")]

/-- A merged row for a key present only in the right table: the key cells come
from the right row, left-side non-key cells are NaN. -/
def mkRightOnlyRow (leftCols rightCols pks : List String)
    (rr : List (Option Val)) : List (Option Val) :=
  leftCols.map (fun c => if c ∈ pks then lookupName rightCols rr c else none)
    ++ nonKeyCells rightCols pks rr ++ [some (Val.str "right_only")]

/-- `TableComparator.join_tables`: the full outer merge on the primary keys
with `indicator=True`.  Every left row is matched against the right rows with
the same key tuple (one output row per match, `left_only` when there is none),
then the right rows whose key appears nowhere on the left are appended.  With
`sort=False` (the default) pandas keeps this order: left keys in order of
appearance, then unmatched right keys. -/
def joinTables (left right : Table) (pks : List String) : DF :=
  let lkeys := left.rows.map (keyOf left.cols pks)
  { cols := joinedCols left.cols right.cols pks
    rows :=
      (left.rows.flatMap fun lr =>
        let ms := right.rows.filter fun rr =>
          decide (keyOf right.cols pks rr = keyOf left.cols pks lr)
        if ms.isEmpty then [mkLeftOnlyRow right.cols pks lr]
        else ms.map (mkBothRow right.cols pks lr))
      ++ ((right.rows.filter fun rr =>
            !decide (keyOf right.cols pks rr ∈ lkeys)).map
          (mkRightOnlyRow left.cols right.cols pks)) }

/-- `self.joined[self.joined["_merge"] == tag]`. -/
def filterTag (j : DF) (tag : String) : DF :=
  ⟨j.cols, j.rows.filter fun r =>
    decide (lookupName j.cols r "_merge" = some (Val.str tag))⟩

/-- The `left_only` branch of `split_joined_table`: filter on the indicator,
select the key columns plus every column whose name **contains** the substring
`_left_table`, then strip every occurrence of that substring from the selected
column names. -/
def splitLeftOnly (j : DF) (pks : List String) : DF :=
  let lo := filterTag j "left_only"
  let columns := pks ++ lo.cols.filter (fun c => isSub lsuffix c)
  let sel := selectCols lo columns
  ⟨sel.cols.map (removeAll lsuffix), sel.rows⟩

/-- The `right_only` branch of `split_joined_table`, symmetric with
`_right_table`. -/
def splitRightOnly (j : DF) (pks : List String) : DF :=
  let ro := filterTag j "right_only"
  let columns := pks ++ ro.cols.filter (fun c => isSub rsuffix c)
  let sel := selectCols ro columns
  ⟨sel.cols.map (removeAll rsuffix), sel.rows⟩

/-- `self.both`: the merged rows tagged `both`, all columns kept (including
`_merge`); `split_joined_table` stores a deep copy. -/
def splitBoth (j : DF) : DF :=
  filterTag j "both"

/-- `fillna("")` on one cell: NaN becomes the empty string. -/
def fillCell (v : Option Val) : Option Val :=
  some (v.getD (Val.str ""))

/-- pandas elementwise `==` on two cells: NaN compares unequal to
everything (this point is unreachable after `fillna`, which removes NaN). -/
def eqCell (a b : Option Val) : Bool :=
  match a, b with
  | some x, some y => x == y
  | _, _ => false

/-- `TableComparator.compare_records_in_both`.  For each matched row, the
values under the key columns plus the `_left_table`-suffixed columns and the
values under the key columns plus the `_right_table`-suffixed columns are laid
side by side (after dropping `_merge` and applying `fillna("")` to a copy) and
compared positionally; the three resulting rows per record are labelled in a
trailing `comparison` column, stacked, positionally renamed to the left
table's column names plus `comparison`, and reordered with `comparison`
first.  `none` models the exceptions the Python code can raise: a
`pd.DataFrame` of differently-labelled Series (selector lists of different
lengths), `pd.concat` of an empty list (zero matched rows), and assignment of
a wrong-length column-name list. -/
def compareRecordsInBoth (leftCols pks : List String) (both : DF) :
    Option DF :=
  let left_columns := pks ++ both.cols.filter (fun c => isSub lsuffix c)
  let right_columns := pks ++ both.cols.filter (fun c => isSub rsuffix c)
  let noMerge := selectCols both (both.cols.filter (fun c => c ≠ "_merge"))
  let filled : DF := ⟨noMerge.cols, noMerge.rows.map fun r => r.map fillCell⟩
  if left_columns.length ≠ right_columns.length then none
  else if filled.rows.isEmpty then none
  else if left_columns.length ≠ leftCols.length then none
  else
    let triples := filled.rows.flatMap fun r =>
      let lrow := left_columns.map (lookupName filled.cols r)
      let rrow := right_columns.map (lookupName filled.cols r)
      let cmp := List.zipWith (fun a b => some (Val.bool (eqCell a b))) lrow rrow
      [lrow ++ [some (Val.str "left_table")],
       rrow ++ [some (Val.str "right_table")],
       cmp ++ [some (Val.str "comparison_result")]]
    let renamed : DF := ⟨leftCols ++ ["comparison"], triples⟩
    some (selectCols renamed ("comparison" :: leftCols))

/-- Count of merged rows carrying a given indicator value
(`self.joined["_merge"].value_counts()`). -/
def tagCount (j : DF) (tag : String) : Nat :=
  (filterTag j tag).rows.length

/-- `merge_counts_df["count"].sum()`: the indicator is a categorical over the
three membership tags, so the summed counts are the three tags' counts. -/
def availTotal (j : DF) : Nat :=
  tagCount j "left_only" + tagCount j "right_only" + tagCount j "both"

/-- A tag's availability percentage from `visualize_record_availability`:
`count / count.sum() * 100`. -/
def availabilityPct (j : DF) (tag : String) : ℚ :=
  (tagCount j tag : ℚ) / (availTotal j : ℚ) * 100

/-- The per-column agreement rates of `visualize_record_consistency`: over the
`comparison_result` rows of `comparison_df`, for every column other than
`comparison` and the primary keys, the fraction of records whose flag is
`True`.  `none` models the `ZeroDivisionError` raised when there are no
`comparison_result` rows. -/
def recordConsistency (pks : List String) (cdf : DF) :
    Option (List (String × ℚ)) :=
  let res := cdf.rows.filter fun r =>
    decide (lookupName cdf.cols r "comparison" = some (Val.str "comparison_result"))
  let columns := cdf.cols.filter fun c =>
    !decide (c = "comparison" ∨ c ∈ pks)
  if res.length = 0 then none
  else
    some (columns.map fun c =>
      (c, ((res.filter fun r =>
              decide (lookupName cdf.cols r c = some (Val.bool true))).length : ℚ)
            / (res.length : ℚ)))

/-- `prepare_results` up to the data the claims observe: validation gates the
merge, the merge feeds the split, the matched subset feeds the field
comparison.  `none` models any raised exception after validation passes. -/
def runComparison (left right : Table) (pks : List String) :
    Option (DF × DF × DF) :=
  match validate_data_quality left right pks with
  | .error _ => none
  | .ok _ =>
    let j := joinTables left right pks
    let lo := splitLeftOnly j pks
    let ro := splitRightOnly j pks
    let b := splitBoth j
    (compareRecordsInBoth left.cols pks b).map fun cdf => (lo, ro, cdf)

/-- The mutable attributes of a `TableComparator` object; `none` marks an
attribute that has not been assigned yet. -/
structure CState where
  left_table : Table
  right_table : Table
  primary_keys : List String
  joined : Option DF := none
  left_only : Option DF := none
  right_only : Option DF := none
  both : Option DF := none
  comparison_df : Option DF := none
deriving DecidableEq, Repr

/-- `self.join_tables()` as a state transformer. -/
def joinStep (s : CState) : CState :=
  { s with joined := some (joinTables s.left_table s.right_table s.primary_keys) }

/-- `self.split_joined_table()` as a state transformer; `none` models the
`AttributeError` when `self.joined` was never assigned. -/
def splitStep (s : CState) : Option CState :=
  s.joined.map fun j =>
    { s with
      left_only := some (splitLeftOnly j s.primary_keys)
      right_only := some (splitRightOnly j s.primary_keys)
      both := some (splitBoth j) }

/-- `self.compare_records_in_both()` as a state transformer.  The source
copies `self.both` (line 98) and applies `fillna` to that copy (line 99), so
the only attribute it assigns is `self.comparison_df`; `none` models the
`AttributeError` when `self.both` is missing or an exception inside the
comparison. -/
def compareStep (s : CState) : Option CState :=
  s.both.bind fun b =>
    (compareRecordsInBoth s.left_table.cols s.primary_keys b).map fun cdf =>
      { s with comparison_df := some cdf }

/-! ## Specification-side definitions

These definitions follow the words of the specification (not the source); the
refinement claims compare the source-derived functions above against them. -/

/-- Modelled from the spec (§4.3, claim C6): the `left_only` output must be
"a filtered slice of the original left table" — the left rows whose
primary-key tuple does not occur in the right table, restricted to the key
columns plus the left-side non-key columns, under the original column
names. -/
def specLeftOnlySlice (left right : Table) (pks : List String) : DF :=
  let cs := pks ++ nonKeys left.cols pks
  ⟨cs,
   (left.rows.filter fun r =>
      !decide (keyOf left.cols pks r ∈ right.rows.map (keyOf right.cols pks))).map
     fun r => cs.map (lookupName left.cols r)⟩

/-- Modelled from the spec (§4.3, claim C6), symmetric side. -/
def specRightOnlySlice (left right : Table) (pks : List String) : DF :=
  let cs := pks ++ nonKeys right.cols pks
  ⟨cs,
   (right.rows.filter fun r =>
      !decide (keyOf right.cols pks r ∈ left.rows.map (keyOf left.cols pks))).map
     fun r => cs.map (lookupName right.cols r)⟩

/-- The value a matched record shows on the right side for column `c`: key
columns come from the (shared) key cells, other columns from the right row;
nulls normalised to the empty string (§4.4). -/
def specRightVal (left right : Table) (pks : List String)
    (lr rr : List (Option Val)) (c : String) : Option Val :=
  if c ∈ pks then fillCell (lookupName left.cols lr c)
  else fillCell (lookupName right.cols rr c)

/-- The `left_table` presentation row of one ComparisonRecord: the label cell
followed by the left row's null-normalised values in original column order. -/
def specLeftRow (left : Table) (lr : List (Option Val)) : List (Option Val) :=
  some (Val.str "left_table") :: left.cols.map fun c => fillCell (lookupName left.cols lr c)

/-- The `right_table` presentation row of one ComparisonRecord. -/
def specRightRow (left right : Table) (pks : List String)
    (lr rr : List (Option Val)) : List (Option Val) :=
  some (Val.str "right_table") :: left.cols.map (specRightVal left right pks lr rr)

/-- The `comparison_result` presentation row of one ComparisonRecord: per
column, the equality flag of the two null-normalised values. -/
def specFlagsRow (left right : Table) (pks : List String)
    (lr rr : List (Option Val)) : List (Option Val) :=
  some (Val.str "comparison_result") :: left.cols.map fun c =>
    some (Val.bool (eqCell (fillCell (lookupName left.cols lr c))
      (specRightVal left right pks lr rr c)))

/-- Modelled from the spec (§4.4, claim C3): the intended field-comparison
output — one three-row ComparisonRecord per matched pair of original rows,
columns in the original table's order with the `comparison` label first, and
every value listed under the column name it held in the original row (up to
the documented null → empty-string normalisation). -/
def specComparisonTable (left right : Table) (pks : List String) : DF :=
  ⟨"comparison" :: left.cols,
   left.rows.flatMap fun lr =>
     (right.rows.filter fun rr =>
        decide (keyOf right.cols pks rr = keyOf left.cols pks lr)).flatMap
       fun rr =>
         [specLeftRow left lr,
          specRightRow left right pks lr rr,
          specFlagsRow left right pks lr rr]⟩

/-! ## Hypothesis bundles -/

/-- The context in which the pipeline is run: well-formed loaded tables, the
user-supplied primary keys name distinct existing columns, no table column
collides with pandas' reserved indicator column, and `validate_data_quality`
passed. -/
def ValidInput (left right : Table) (pks : List String) : Prop :=
  left.WF ∧ right.WF ∧ pks ⊆ left.cols ∧ pks.Nodup ∧ "_merge" ∉ left.cols ∧
    validate_data_quality left right pks = .ok ()

instance (left right : Table) (pks : List String) :
    Decidable (ValidInput left right pks) := by
  unfold ValidInput; infer_instance

/-- A column name that does not interfere with the merge's suffix-based
disambiguation: it contains neither suffix, appending one suffix does not
create an occurrence of the other, and stripping a suffix from the suffixed
name recovers the original name. -/
def CleanCol (c : String) : Prop :=
  isSub lsuffix c = false ∧ isSub rsuffix c = false ∧
    isSub lsuffix (c ++ rsuffix) = false ∧ isSub rsuffix (c ++ lsuffix) = false ∧
    removeAll lsuffix (c ++ lsuffix) = c ∧ removeAll rsuffix (c ++ rsuffix) = c

instance (c : String) : Decidable (CleanCol c) := by
  unfold CleanCol; infer_instance

/-- Every column of the table is clean in the sense of `CleanCol`. -/
def CleanCols (cols : List String) : Prop :=
  ∀ c ∈ cols, CleanCol c

instance (cols : List String) : Decidable (CleanCols cols) := by
  unfold CleanCols; infer_instance

/-! ## Lemmas about label lookup -/

theorem lookupName_append_right (cols cols₂ : List String)
    (cells cells₂ : List (Option Val)) (x : String)
    (hlen : cells.length = cols.length) (hx : x ∉ cols) :
    lookupName (cols ++ cols₂) (cells ++ cells₂) x = lookupName cols₂ cells₂ x := by
  induction cols generalizing cells with
  | nil =>
    cases cells with
    | nil => rfl
    | cons v vs => simp at hlen
  | cons c cs ih =>
    cases cells with
    | nil => simp at hlen
    | cons v vs =>
      simp only [List.cons_append, lookupName]
      rw [if_neg (by intro hc; subst hc; exact hx (List.mem_cons_self c cs))]
      exact ih vs (by simpa using hlen) (fun h => hx (List.mem_cons_of_mem c h))

theorem lookupName_append_left (cols cols₂ : List String)
    (cells cells₂ : List (Option Val)) (x : String)
    (hlen : cells.length = cols.length) (hx : x ∈ cols) :
    lookupName (cols ++ cols₂) (cells ++ cells₂) x = lookupName cols cells x := by
  induction cols generalizing cells with
  | nil => cases hx
  | cons c cs ih =>
    cases cells with
    | nil => simp at hlen
    | cons v vs =>
      simp only [List.cons_append, lookupName]
      by_cases hc : c = x
      · rw [if_pos hc, if_pos hc]
      · rw [if_neg hc, if_neg hc]
        exact ih vs (by simpa using hlen)
          (by rcases List.mem_cons.mp hx with h | h; exact absurd h.symm hc; exact h)

theorem lookupName_map (g : String → String) (cols : List String)
    (cells : List (Option Val)) (x y : String)
    (h : ∀ c ∈ cols, g c = y ↔ c = x) :
    lookupName (cols.map g) cells y = lookupName cols cells x := by
  induction cols generalizing cells with
  | nil => rfl
  | cons c cs ih =>
    cases cells with
    | nil => rfl
    | cons v vs =>
      simp only [List.map_cons, lookupName]
      by_cases hc : g c = y
      · rw [if_pos hc, if_pos ((h c (List.mem_cons_self c cs)).mp hc)]
      · rw [if_neg hc, if_neg fun he => hc ((h c (List.mem_cons_self c cs)).mpr he)]
        exact ih vs fun c₂ hc₂ => h c₂ (List.mem_cons_of_mem c hc₂)

theorem lookupName_cons_ne (c : String) (cs : List String) (v : Option Val)
    (vs : List (Option Val)) (x : String) (h : c ≠ x) :
    lookupName (c :: cs) (v :: vs) x = lookupName cs vs x := by
  simp only [lookupName, if_neg h]

theorem map_lookupName_self (cols : List String) (cells : List (Option Val))
    (hnd : cols.Nodup) (hlen : cells.length = cols.length) :
    cols.map (lookupName cols cells) = cells := by
  induction cols generalizing cells with
  | nil => cases cells with
    | nil => rfl
    | cons v vs => simp at hlen
  | cons c cs ih =>
    cases cells with
    | nil => simp at hlen
    | cons v vs =>
      simp only [List.map_cons]
      have hhead : lookupName (c :: cs) (v :: vs) c = v := by
        simp [lookupName]
      rw [hhead]
      have htail : cs.map (lookupName (c :: cs) (v :: vs)) = cs.map (lookupName cs vs) := by
        apply List.map_congr_left
        intro a ha
        exact lookupName_cons_ne c cs v vs a (fun hca => (List.nodup_cons.mp hnd).1 (hca ▸ ha))
      rw [htail, ih vs (List.nodup_cons.mp hnd).2 (by simpa using hlen)]

/-! ## Lemmas about the suffix machinery -/

theorem string_length_append (a b : String) : (a ++ b).length = a.length + b.length := by
  cases a with
  | mk da =>
    cases b with
    | mk db => simp [String.length, String.append]

theorem append_lsuffix_ne_merge (c : String) : c ++ lsuffix ≠ "_merge" := by
  intro h
  have h₁ := congrArg String.length h
  rw [string_length_append] at h₁
  have h₂ : lsuffix.length = 11 := rfl
  have h₃ : ("_merge" : String).length = 6 := rfl
  omega

theorem append_rsuffix_ne_merge (c : String) : c ++ rsuffix ≠ "_merge" := by
  intro h
  have h₁ := congrArg String.length h
  rw [string_length_append] at h₁
  have h₂ : rsuffix.length = 12 := rfl
  have h₃ : ("_merge" : String).length = 6 := rfl
  omega

theorem merge_notMem_suffixified (cols pks : List String) (hm : "_merge" ∉ cols) :
    "_merge" ∉ cols.map (suffixify pks lsuffix) := by
  intro h
  rcases List.mem_map.mp h with ⟨c, hc, he⟩
  unfold suffixify at he
  split at he
  · exact hm (he ▸ hc)
  · exact append_lsuffix_ne_merge c he

theorem merge_notMem_rsuffixed (cols : List String) :
    "_merge" ∉ cols.map (· ++ rsuffix) := by
  intro h
  rcases List.mem_map.mp h with ⟨c, _, he⟩
  exact append_rsuffix_ne_merge c he

/-- Reading the indicator cell of a merged row: the `_merge` column is the
last one, and no suffixed or key column can be called `_merge`. -/
theorem lookup_merge_last (A B : List String) (a b : List (Option Val))
    (v : Option Val) (ha : a.length = A.length) (hb : b.length = B.length)
    (hA : "_merge" ∉ A) (hB : "_merge" ∉ B) :
    lookupName (A ++ B ++ ["_merge"]) (a ++ b ++ [v]) "_merge" = v := by
  rw [lookupName_append_right (A ++ B) ["_merge"] (a ++ b) [v] "_merge"
    (by simp [ha, hb]) (by simp [hA, hB])]
  simp [lookupName]

/-! ## Structure of the merged frame -/

theorem tag_mkBothRow (L R : Table) (pks : List String) (lr rr : List (Option Val))
    (hlr : lr.length = L.cols.length) (hm : "_merge" ∉ L.cols) :
    lookupName (joinedCols L.cols R.cols pks) (mkBothRow R.cols pks lr rr) "_merge"
      = some (Val.str "both") := by
  unfold joinedCols mkBothRow
  exact lookup_merge_last _ _ _ _ _ (by simp [hlr]) (by simp [nonKeyCells])
    (merge_notMem_suffixified _ _ hm) (merge_notMem_rsuffixed _)

theorem tag_mkLeftOnlyRow (L R : Table) (pks : List String) (lr : List (Option Val))
    (hlr : lr.length = L.cols.length) (hm : "_merge" ∉ L.cols) :
    lookupName (joinedCols L.cols R.cols pks) (mkLeftOnlyRow R.cols pks lr) "_merge"
      = some (Val.str "left_only") := by
  unfold joinedCols mkLeftOnlyRow
  exact lookup_merge_last _ _ _ _ _ (by simp [hlr]) (by simp)
    (merge_notMem_suffixified _ _ hm) (merge_notMem_rsuffixed _)

theorem tag_mkRightOnlyRow (L R : Table) (pks : List String) (rr : List (Option Val))
    (hm : "_merge" ∉ L.cols) :
    lookupName (joinedCols L.cols R.cols pks) (mkRightOnlyRow L.cols R.cols pks rr) "_merge"
      = some (Val.str "right_only") := by
  unfold joinedCols mkRightOnlyRow
  exact lookup_merge_last _ _ _ _ _ (by simp) (by simp [nonKeyCells])
    (merge_notMem_suffixified _ _ hm) (merge_notMem_rsuffixed _)

theorem filter_flatMap_eq {α β : Type} (l : List α) (f : α → List β) (p : β → Bool) :
    (l.flatMap f).filter p = l.flatMap fun x => (f x).filter p := by
  induction l with
  | nil => rfl
  | cons a l ih => simp [List.flatMap_cons, List.filter_append, ih]

theorem flatMap_ite_singleton {α β : Type} (l : List α) (c : α → Bool) (g : α → β) :
    (l.flatMap fun x => if c x then [g x] else []) = (l.filter c).map g := by
  induction l with
  | nil => rfl
  | cons a l ih =>
    by_cases h : c a
    · simp [List.flatMap_cons, h, ih]
    · simp [List.flatMap_cons, h, ih]

/-- The rows tagged `left_only` are precisely the merged images of the left
rows with no key match on the right, in order. -/
theorem filterTag_join_left_only (L R : Table) (pks : List String)
    (hL : L.WF) (hm : "_merge" ∉ L.cols) :
    (filterTag (joinTables L R pks) "left_only").rows
      = (L.rows.filter fun lr =>
          (R.rows.filter fun rr =>
            decide (keyOf R.cols pks rr = keyOf L.cols pks lr)).isEmpty).map
          (mkLeftOnlyRow R.cols pks) := by
  unfold filterTag joinTables
  simp only [List.filter_append]
  rw [filter_flatMap_eq]
  have hright : ((R.rows.filter fun rr =>
      !decide (keyOf R.cols pks rr ∈ L.rows.map (keyOf L.cols pks))).map
        (mkRightOnlyRow L.cols R.cols pks)).filter
      (fun r => decide (lookupName (joinedCols L.cols R.cols pks) r "_merge"
        = some (Val.str "left_only"))) = [] := by
    apply List.filter_eq_nil_iff.mpr
    intro r hr
    rcases List.mem_map.mp hr with ⟨rr, _, he⟩
    rw [← he, tag_mkRightOnlyRow L R pks rr hm]
    simp
  rw [hright, List.append_nil]
  have hleft : ∀ lr ∈ L.rows,
      ((if (R.rows.filter fun rr =>
            decide (keyOf R.cols pks rr = keyOf L.cols pks lr)).isEmpty then
          [mkLeftOnlyRow R.cols pks lr]
        else
          (R.rows.filter fun rr =>
            decide (keyOf R.cols pks rr = keyOf L.cols pks lr)).map
            (mkBothRow R.cols pks lr)).filter
        (fun r => decide (lookupName (joinedCols L.cols R.cols pks) r "_merge"
          = some (Val.str "left_only"))))
      = if (R.rows.filter fun rr =>
            decide (keyOf R.cols pks rr = keyOf L.cols pks lr)).isEmpty then
          [mkLeftOnlyRow R.cols pks lr]
        else [] := by
    intro lr hlr
    have hlen : lr.length = L.cols.length := hL.2.2 lr hlr
    split
    · simp [tag_mkLeftOnlyRow L R pks lr hlen hm]
    · apply List.filter_eq_nil_iff.mpr
      intro r hr
      rcases List.mem_map.mp hr with ⟨rr, _, he⟩
      rw [← he, tag_mkBothRow L R pks lr rr hlen hm]
      simp
  rw [List.flatMap_congr hleft]
  exact flatMap_ite_singleton L.rows _ _

/-- The rows tagged `both` are precisely the merged images of the matched
pairs, in left-major order. -/
theorem filterTag_join_both (L R : Table) (pks : List String)
    (hL : L.WF) (hm : "_merge" ∉ L.cols) :
    (filterTag (joinTables L R pks) "both").rows
      = L.rows.flatMap fun lr =>
          (R.rows.filter fun rr =>
            decide (keyOf R.cols pks rr = keyOf L.cols pks lr)).map
            (mkBothRow R.cols pks lr) := by
  unfold filterTag joinTables
  simp only [List.filter_append]
  rw [filter_flatMap_eq]
  have hright : ((R.rows.filter fun rr =>
      !decide (keyOf R.cols pks rr ∈ L.rows.map (keyOf L.cols pks))).map
        (mkRightOnlyRow L.cols R.cols pks)).filter
      (fun r => decide (lookupName (joinedCols L.cols R.cols pks) r "_merge"
        = some (Val.str "both"))) = [] := by
    apply List.filter_eq_nil_iff.mpr
    intro r hr
    rcases List.mem_map.mp hr with ⟨rr, _, he⟩
    rw [← he, tag_mkRightOnlyRow L R pks rr hm]
    simp
  rw [hright, List.append_nil]
  apply List.flatMap_congr
  intro lr hlr
  have hlen : lr.length = L.cols.length := hL.2.2 lr hlr
  split
  · rename_i hempty
    rw [List.isEmpty_iff.mp hempty]
    simp [tag_mkLeftOnlyRow L R pks lr hlen hm]
  · rw [List.filter_map]
    have : ((fun r => decide (lookupName (joinedCols L.cols R.cols pks) r "_merge"
        = some (Val.str "both"))) ∘ mkBothRow R.cols pks lr) = fun _ => true := by
      funext rr
      simp [Function.comp, tag_mkBothRow L R pks lr rr hlen hm]
    rw [this, List.filter_true]

/-- The rows tagged `right_only` are precisely the merged images of the right
rows whose key appears nowhere on the left, in order. -/
theorem filterTag_join_right_only (L R : Table) (pks : List String)
    (hL : L.WF) (hm : "_merge" ∉ L.cols) :
    (filterTag (joinTables L R pks) "right_only").rows
      = (R.rows.filter fun rr =>
          !decide (keyOf R.cols pks rr ∈ L.rows.map (keyOf L.cols pks))).map
          (mkRightOnlyRow L.cols R.cols pks) := by
  unfold filterTag joinTables
  simp only [List.filter_append]
  rw [filter_flatMap_eq]
  have hleft : (L.rows.flatMap fun lr =>
      ((if (R.rows.filter fun rr =>
            decide (keyOf R.cols pks rr = keyOf L.cols pks lr)).isEmpty then
          [mkLeftOnlyRow R.cols pks lr]
        else
          (R.rows.filter fun rr =>
            decide (keyOf R.cols pks rr = keyOf L.cols pks lr)).map
            (mkBothRow R.cols pks lr)).filter
        (fun r => decide (lookupName (joinedCols L.cols R.cols pks) r "_merge"
          = some (Val.str "right_only"))))) = [] := by
    apply List.flatMap_eq_nil_iff.mpr
    intro lr hlr
    have hlen : lr.length = L.cols.length := hL.2.2 lr hlr
    apply List.filter_eq_nil_iff.mpr
    intro r hr
    split at hr
    · rcases List.mem_singleton.mp hr with he
      rw [he, tag_mkLeftOnlyRow L R pks lr hlen hm]
      simp
    · rcases List.mem_map.mp hr with ⟨rr, _, he⟩
      rw [← he, tag_mkBothRow L R pks lr rr hlen hm]
      simp
  rw [hleft, List.nil_append]
  rw [List.filter_map]
  have : ((fun r => decide (lookupName (joinedCols L.cols R.cols pks) r "_merge"
      = some (Val.str "right_only"))) ∘ mkRightOnlyRow L.cols R.cols pks)
      = fun _ => true := by
    funext rr
    simp [Function.comp, tag_mkRightOnlyRow L R pks rr hm]
  rw [this, List.filter_true]

/-! ## Counting lemmas -/

theorem filter_key_eq_nil {α β : Type} [DecidableEq β] (rs : List α) (g : α → β)
    (k : β) (h : ∀ x ∈ rs, g x ≠ k) :
    (rs.filter fun b => decide (g b = k)) = [] := by
  apply List.filter_eq_nil_iff.mpr
  intro b hb
  simp [h b hb]

theorem filter_key_eq_length {α β : Type} [DecidableEq β] (rs : List α) (g : α → β)
    (k : β) (hnd : (rs.map g).Nodup) :
    (rs.filter fun b => decide (g b = k)).length
      = if k ∈ rs.map g then 1 else 0 := by
  induction rs with
  | nil => simp
  | cons b rs ih =>
    have hnd₂ := List.nodup_cons.mp (show (g b :: rs.map g).Nodup from hnd)
    by_cases hb : g b = k
    · rw [List.filter_cons_of_pos (by simp [hb])]
      rw [filter_key_eq_nil rs g k
        (fun x hx he => hnd₂.1 (by rw [hb, ← he]; exact List.mem_map_of_mem g hx))]
      have hk : k ∈ (b :: rs).map g := by
        rw [List.map_cons]
        exact hb ▸ List.mem_cons_self (g b) (rs.map g)
      rw [if_pos hk]
      rfl
    · rw [List.filter_cons_of_neg (by simp [hb])]
      rw [ih hnd₂.2]
      by_cases hk : k ∈ rs.map g
      · have hk₂ : k ∈ (b :: rs).map g := by
          rw [List.map_cons]
          exact List.mem_cons_of_mem _ hk
        rw [if_pos hk, if_pos hk₂]
      · have hk₂ : k ∉ (b :: rs).map g := by
          rw [List.map_cons]
          intro hc
          rcases List.mem_cons.mp hc with he | hm
          · exact hb he.symm
          · exact hk hm
        rw [if_neg hk, if_neg hk₂]

theorem length_flatMap_ite {α β : Type} (l : List α) (c : α → Bool) (g : α → β)
    (f : α → List β) (hc : ∀ a ∈ l, c a = true → f a = []) :
    (l.flatMap fun a => if c a then [g a] else f a).length
      = (l.filter c).length + (l.flatMap f).length := by
  induction l with
  | nil => rfl
  | cons a l ih =>
    have ih₂ := ih fun x hx => hc x (List.mem_cons_of_mem a hx)
    rw [List.flatMap_cons, List.flatMap_cons, List.length_append, List.length_append, ih₂]
    by_cases ha : c a
    · rw [List.filter_cons_of_pos ha, hc a (List.mem_cons_self a l) ha, if_pos ha]
      simp only [List.length_cons, List.length_nil]
      omega
    · rw [List.filter_cons_of_neg (by simp [ha]), if_neg ha]
      omega

/-- The merged frame is partitioned by the indicator: the three tag counts sum
to the total row count (`merge_counts_df["count"].sum()` is the whole frame's
length). -/
theorem availTotal_join (L R : Table) (pks : List String)
    (hL : L.WF) (hm : "_merge" ∉ L.cols) :
    availTotal (joinTables L R pks) = (joinTables L R pks).rows.length := by
  unfold availTotal tagCount
  rw [filterTag_join_left_only L R pks hL hm, filterTag_join_right_only L R pks hL hm,
    filterTag_join_both L R pks hL hm]
  simp only [joinTables, List.length_append, List.length_map]
  rw [length_flatMap_ite _ _ _ _
    (fun lr _ he => by rw [List.isEmpty_iff.mp he]; rfl)]
  omega

/-- Membership form of "this left row has no key match on the right". -/
theorem noMatch_iff (L R : Table) (pks : List String) (lr : List (Option Val)) :
    (R.rows.filter fun rr =>
      decide (keyOf R.cols pks rr = keyOf L.cols pks lr)).isEmpty
    = !decide (keyOf L.cols pks lr ∈ R.rows.map (keyOf R.cols pks)) := by
  by_cases h : keyOf L.cols pks lr ∈ R.rows.map (keyOf R.cols pks)
  · rcases List.mem_map.mp h with ⟨rr, hrr, he⟩
    have hmem : rr ∈ R.rows.filter fun rr =>
        decide (keyOf R.cols pks rr = keyOf L.cols pks lr) :=
      List.mem_filter.mpr ⟨hrr, by simp [he]⟩
    rw [List.isEmpty_eq_false.mpr (List.ne_nil_of_mem hmem)]
    simp [h]
  · rw [filter_key_eq_nil R.rows _ _
      (fun rr hrr he => h (by rw [← he]; exact List.mem_map_of_mem _ hrr))]
    simp [h]

/-! ## Facts extracted from a passed validation -/

theorem validate_ok_facts (L R : Table) (pks : List String)
    (h : validate_data_quality L R pks = .ok ()) :
    L.cols = R.cols ∧ L.dtypes = R.dtypes ∧
      (L.rows.map (keyOf L.cols pks)).Nodup ∧
      (R.rows.map (keyOf R.cols pks)).Nodup := by
  unfold validate_data_quality at h
  split at h
  · cases h
  · split at h
    · cases h
    · split at h
      · cases h
      · split at h
        · cases h
        · split at h
          · cases h
          · rename_i h₁ h₂ h₃ h₄ h₅
            exact ⟨not_not.mp (fun hc => h₂ hc), not_not.mp (fun hc => h₃ hc),
              not_not.mp h₄, not_not.mp h₅⟩

/-! ## Miscellaneous pipeline lemmas -/

theorem splitLeftOnly_rows_length (j : DF) (pks : List String) :
    (splitLeftOnly j pks).rows.length = tagCount j "left_only" := by
  simp [splitLeftOnly, selectCols, tagCount]

theorem splitRightOnly_rows_length (j : DF) (pks : List String) :
    (splitRightOnly j pks).rows.length = tagCount j "right_only" := by
  simp [splitRightOnly, selectCols, tagCount]

/-- With no matched rows, `compare_records_in_both` fails: the loop body never
runs and `pd.concat` raises on the empty list. -/
theorem compareRecordsInBoth_none (leftCols pks : List String) (b : DF)
    (hb : b.rows = []) : compareRecordsInBoth leftCols pks b = none := by
  unfold compareRecordsInBoth
  simp [selectCols, hb]

/-- "Number of shared key tuples": how many left rows carry a key tuple that
also occurs on the right (with unique keys per side this is the size of the
intersection of the two key sets). -/
def sharedKeyCount (L R : Table) (pks : List String) : Nat :=
  ((L.rows.map (keyOf L.cols pks)).filter fun k =>
    decide (k ∈ R.rows.map (keyOf R.cols pks))).length

theorem sharedKeyCount_symm (L R : Table) (pks : List String)
    (ndL : (L.rows.map (keyOf L.cols pks)).Nodup)
    (ndR : (R.rows.map (keyOf R.cols pks)).Nodup) :
    ((R.rows.map (keyOf R.cols pks)).filter fun k =>
      decide (k ∈ L.rows.map (keyOf L.cols pks))).length
      = sharedKeyCount L R pks := by
  unfold sharedKeyCount
  apply List.Perm.length_eq
  apply (List.perm_ext_iff_of_nodup (ndR.filter _) (ndL.filter _)).mpr
  intro a
  simp [List.mem_filter, and_comm]

/-! ## Concrete instances used by the claims -/

/-- Left table of the spec §8 end-to-end scenario. -/
def exL : Table :=
  ⟨["id", "v"], ["int64", "object"],
   [[some (Val.int 1), some (Val.str "a")], [some (Val.int 2), some (Val.str "b")]]⟩

/-- Right table of the spec §8 end-to-end scenario. -/
def exR : Table :=
  ⟨["id", "v"], ["int64", "object"],
   [[some (Val.int 2), some (Val.str "b")], [some (Val.int 3), some (Val.str "c")]]⟩

/-- A pair of tables with mismatching dtypes on `age` (left `int64`, right
`object`) and `score` (left `float64`, right `int64`). -/
def c1Left : Table :=
  ⟨["id", "age", "score"], ["int64", "int64", "float64"],
   [[some (Val.int 1), some (Val.int 30), some (Val.int 5)]]⟩

/-- Right counterpart of `c1Left`. -/
def c1Right : Table :=
  ⟨["id", "age", "score"], ["int64", "object", "int64"],
   [[some (Val.int 1), some (Val.str "30"), some (Val.int 7)]]⟩

/-- Validated tables with disjoint key sets (no record is tagged `both`). -/
def c2Left : Table :=
  ⟨["id", "v"], ["int64", "object"], [[some (Val.int 1), some (Val.str "a")]]⟩

/-- Right counterpart of `c2Left`: a different key. -/
def c2Right : Table :=
  ⟨["id", "v"], ["int64", "object"], [[some (Val.int 2), some (Val.str "b")]]⟩

/-! ## Claim C1 -/

/-- C1: code bug.  When only the declared types differ, validation does fail
with the `InconsistentColumnTypes` kind and its mapping names every
mismatching column exactly once ( `age` and `score` here, each once) — but
the two sides ARE interchanged: the entry for `age` stores `"object"` (the
**right** table's dtype) in the `left_table` slot and `"int64"` (the **left**
table's dtype) in the `right_table` slot, and symmetrically for `score`,
because `validate_data_quality` builds `left_inconsistent_dict` from
`self.right_table.dtypes` and vice versa. -/
theorem c1_type_error_labels_swapped :
    validate_data_quality c1Left c1Right ["id"]
      = .error (.inconsistentColumnTypes
          [("age", "object", "int64"), ("score", "int64", "float64")])
    ∧ c1Left.dtypes = ["int64", "int64", "float64"]
    ∧ c1Right.dtypes = ["int64", "object", "int64"] := by
  decide

/-! ## Claim C9 -/

/-- C9: confirmed.  Name checking is position-sensitive: two tables whose
column-name lists are permutations of each other but not equal fail with the
`ColumnNameMismatch` kind (the `assert all(left.columns == right.columns)` on
line 54).  The result is `ColumnNameMismatch` no matter what the dtypes are,
which also shows the name check fires before the per-column type check. -/
theorem c9_name_order_sensitive (L R : Table) (pks : List String)
    (hperm : L.cols.Perm R.cols) (hne : L.cols ≠ R.cols) :
    validate_data_quality L R pks = .error .columnNameMismatch := by
  unfold validate_data_quality
  rw [if_neg (by rw [hperm.length_eq]; exact fun hc => hc rfl), if_pos hne]

/-- Witness for C9: same column set `{a, b}` in different orders, with
different dtype lists as well — validation still reports the name mismatch. -/
theorem c9_witness :
    (Table.mk ["a", "b"] ["int64", "object"] []).cols.Perm
        (Table.mk ["b", "a"] ["float64", "int64"] []).cols
    ∧ (Table.mk ["a", "b"] ["int64", "object"] []).cols
        ≠ (Table.mk ["b", "a"] ["float64", "int64"] []).cols
    ∧ validate_data_quality (Table.mk ["a", "b"] ["int64", "object"] [])
        (Table.mk ["b", "a"] ["float64", "int64"] []) ["a"]
        = .error .columnNameMismatch :=
  ⟨by decide, by decide,
    c9_name_order_sensitive _ _ ["a"] (by decide) (by decide)⟩

/-! ## Claim C2 -/

/-- C2: confirmed.  On validated inputs with zero records tagged `both`, the
field comparison that feeds the per-column agreement aggregate fails (the
embedding's `none`, modelling the raised exception) — so the aggregate itself
is never computed and no division by zero happens — while the `left_only` and
`right_only` partitions stay valid: together they still account for every
record of the joined set. -/
theorem c2_empty_match_set (L R : Table) (pks : List String)
    (h : ValidInput L R pks)
    (hempty : (splitBoth (joinTables L R pks)).rows = []) :
    compareRecordsInBoth L.cols pks (splitBoth (joinTables L R pks)) = none
    ∧ (compareRecordsInBoth L.cols pks (splitBoth (joinTables L R pks))).bind
        (fun cdf => recordConsistency pks cdf) = none
    ∧ (splitLeftOnly (joinTables L R pks) pks).rows.length
        + (splitRightOnly (joinTables L R pks) pks).rows.length
        = (joinTables L R pks).rows.length := by
  have hnone := compareRecordsInBoth_none L.cols pks _ hempty
  refine ⟨hnone, by rw [hnone]; rfl, ?_⟩
  have htot := availTotal_join L R pks h.1 h.2.2.2.2.1
  have hboth : tagCount (joinTables L R pks) "both" = 0 := by
    unfold tagCount
    rw [show filterTag (joinTables L R pks) "both" = splitBoth (joinTables L R pks) from rfl,
      hempty]
    rfl
  rw [splitLeftOnly_rows_length, splitRightOnly_rows_length]
  unfold availTotal at htot
  omega

/-- Witness for C2: disjoint single-key tables — the comparison step fails,
the aggregate is never computed, and the two partitions cover both joined
records. -/
theorem c2_witness :
    ValidInput c2Left c2Right ["id"]
    ∧ (splitBoth (joinTables c2Left c2Right ["id"])).rows = []
    ∧ (compareRecordsInBoth c2Left.cols ["id"]
        (splitBoth (joinTables c2Left c2Right ["id"])) = none
      ∧ (compareRecordsInBoth c2Left.cols ["id"]
          (splitBoth (joinTables c2Left c2Right ["id"]))).bind
          (fun cdf => recordConsistency ["id"] cdf) = none
      ∧ (splitLeftOnly (joinTables c2Left c2Right ["id"]) ["id"]).rows.length
          + (splitRightOnly (joinTables c2Left c2Right ["id"]) ["id"]).rows.length
          = (joinTables c2Left c2Right ["id"]).rows.length) :=
  ⟨by decide, by decide, c2_empty_match_set c2Left c2Right ["id"] (by decide) (by decide)⟩

/-! ## Claim C8 -/

/-- C8: confirmed.  For a non-empty joined set the three availability
percentages computed by `visualize_record_availability` (count of the tag
divided by the summed counts, times 100) add up to exactly 100 (exact rational
arithmetic standing in for "within floating-point tolerance"). -/
theorem c8_availability_sums_to_100 (L R : Table) (pks : List String)
    (h : ValidInput L R pks) (hne : (joinTables L R pks).rows ≠ []) :
    availabilityPct (joinTables L R pks) "left_only"
      + availabilityPct (joinTables L R pks) "right_only"
      + availabilityPct (joinTables L R pks) "both" = 100 := by
  have htot := availTotal_join L R pks h.1 h.2.2.2.2.1
  have hnz : (availTotal (joinTables L R pks) : ℚ) ≠ 0 := by
    rw [htot]
    exact Nat.cast_ne_zero.mpr fun h0 => hne (List.length_eq_zero.mp h0)
  have hsum : (tagCount (joinTables L R pks) "left_only" : ℚ)
      + (tagCount (joinTables L R pks) "right_only" : ℚ)
      + (tagCount (joinTables L R pks) "both" : ℚ)
      = (availTotal (joinTables L R pks) : ℚ) := by
    unfold availTotal
    push_cast
    ring
  unfold availabilityPct
  field_simp
  linarith [hsum]

/-- Witness for C8: the spec §8 scenario (one record of each tag) has
percentages 100/3 + 100/3 + 100/3 = 100. -/
theorem c8_witness :
    ValidInput exL exR ["id"] ∧ (joinTables exL exR ["id"]).rows ≠ []
    ∧ availabilityPct (joinTables exL exR ["id"]) "left_only"
      + availabilityPct (joinTables exL exR ["id"]) "right_only"
      + availabilityPct (joinTables exL exR ["id"]) "both" = 100 :=
  ⟨by decide, by decide,
    c8_availability_sums_to_100 exL exR ["id"] (by decide) (by decide)⟩

/-! ## Claim C5 -/

/-- C5: confirmed.  On validated inputs (identical schemas, unique keys per
side) the outer join produces one record per key tuple, so the `left_only`
partition's row count plus the number of shared key tuples is the left
table's row count, and symmetrically on the right. -/
theorem c5_join_partition_counts (L R : Table) (pks : List String)
    (h : ValidInput L R pks) :
    (splitLeftOnly (joinTables L R pks) pks).rows.length + sharedKeyCount L R pks
      = L.rows.length
    ∧ (splitRightOnly (joinTables L R pks) pks).rows.length + sharedKeyCount L R pks
      = R.rows.length := by
  obtain ⟨hcols, hdt, ndL, ndR⟩ := validate_ok_facts L R pks h.2.2.2.2.2
  have hL := h.1
  have hm := h.2.2.2.2.1
  constructor
  · rw [splitLeftOnly_rows_length]
    unfold tagCount
    rw [filterTag_join_left_only L R pks hL hm, List.length_map]
    have hpred : (L.rows.filter fun lr =>
        (R.rows.filter fun rr =>
          decide (keyOf R.cols pks rr = keyOf L.cols pks lr)).isEmpty)
        = L.rows.filter fun lr =>
            !decide (keyOf L.cols pks lr ∈ R.rows.map (keyOf R.cols pks)) :=
      List.filter_congr fun lr _ => noMatch_iff L R pks lr
    rw [hpred]
    have hshared : sharedKeyCount L R pks
        = (L.rows.filter fun lr =>
            decide (keyOf L.cols pks lr ∈ R.rows.map (keyOf R.cols pks))).length := by
      unfold sharedKeyCount
      rw [← List.countP_eq_length_filter, List.countP_map, List.countP_eq_length_filter]
      rfl
    have hsplit := List.length_eq_length_filter_add
      (fun lr => decide (keyOf L.cols pks lr ∈ R.rows.map (keyOf R.cols pks)))
      (l := L.rows)
    omega
  · rw [splitRightOnly_rows_length]
    unfold tagCount
    rw [filterTag_join_right_only L R pks hL hm, List.length_map]
    have hshared : (R.rows.filter fun rr =>
        decide (keyOf R.cols pks rr ∈ L.rows.map (keyOf L.cols pks))).length
        = sharedKeyCount L R pks := by
      rw [← sharedKeyCount_symm L R pks ndL ndR]
      rw [← List.countP_eq_length_filter, ← List.countP_eq_length_filter,
        List.countP_map]
      rfl
    have hsplit := List.length_eq_length_filter_add
      (fun rr => decide (keyOf R.cols pks rr ∈ L.rows.map (keyOf L.cols pks)))
      (l := R.rows)
    omega

/-- Witness for C5: on the spec §8 scenario, 1 (left-only) + 1 (shared) = 2
rows on the left and 1 (right-only) + 1 (shared) = 2 rows on the right. -/
theorem c5_witness :
    ValidInput exL exR ["id"]
    ∧ ((splitLeftOnly (joinTables exL exR ["id"]) ["id"]).rows.length
        + sharedKeyCount exL exR ["id"] = exL.rows.length
      ∧ (splitRightOnly (joinTables exL exR ["id"]) ["id"]).rows.length
        + sharedKeyCount exL exR ["id"] = exR.rows.length) :=
  ⟨by decide, c5_join_partition_counts exL exR ["id"] (by decide)⟩

/-! ## Claim C10 -/

/-- C10: confirmed.  `compare_records_in_both` works on a copy of
`self.both` (lines 98-99: `.copy()` then `fillna` on the copy), so as a state
transformer it only assigns `self.comparison_df`: the stored joined table,
its matched subset, the two partitions and the two input tables are exactly
what they were before the call — in particular nulls stay nulls there. -/
theorem c10_compare_modifies_only_comparison_df (s s₂ : CState)
    (h : compareStep s = some s₂) :
    s₂.joined = s.joined ∧ s₂.both = s.both ∧ s₂.left_only = s.left_only
    ∧ s₂.right_only = s.right_only ∧ s₂.left_table = s.left_table
    ∧ s₂.right_table = s.right_table := by
  unfold compareStep at h
  cases hb : s.both with
  | none => rw [hb] at h; simp at h
  | some b =>
    rw [hb, Option.some_bind] at h
    rcases Option.map_eq_some'.mp h with ⟨cdf, hc, he⟩
    subst he
    exact ⟨rfl, rfl, rfl, rfl, rfl, rfl⟩

/-- A fully prepared comparator state over the spec §8 scenario. -/
def c10St : CState :=
  { left_table := exL, right_table := exR, primary_keys := ["id"]
    joined := some (joinTables exL exR ["id"])
    left_only := some (splitLeftOnly (joinTables exL exR ["id"]) ["id"])
    right_only := some (splitRightOnly (joinTables exL exR ["id"]) ["id"])
    both := some (splitBoth (joinTables exL exR ["id"]))
    comparison_df := none }

/-- The state after the comparison step on `c10St`. -/
def c10StOut : CState :=
  (compareStep c10St).getD c10St

/-- Witness for C10: on the concrete prepared state the step succeeds and
every attribute except `comparison_df` is unchanged. -/
theorem c10_witness :
    compareStep c10St = some c10StOut
    ∧ (c10StOut.joined = c10St.joined ∧ c10StOut.both = c10St.both
      ∧ c10StOut.left_only = c10St.left_only
      ∧ c10StOut.right_only = c10St.right_only
      ∧ c10StOut.left_table = c10St.left_table
      ∧ c10StOut.right_table = c10St.right_table) :=
  ⟨by decide, c10_compare_modifies_only_comparison_df c10St c10StOut (by decide)⟩

/-! ## Counterexamples for C3, C6 and C7 -/

/-- Matched pair whose primary key `id` is the second column, not the
first. -/
def c3Left : Table :=
  ⟨["v", "id"], ["object", "int64"], [[some (Val.str "a"), some (Val.int 1)]]⟩

/-- Right counterpart of `c3Left`: same key, different `v`. -/
def c3Right : Table :=
  ⟨["v", "id"], ["object", "int64"], [[some (Val.str "b"), some (Val.int 1)]]⟩

/-- C3: counterexample.  With the key as the *second* column, the positional
rename in `compare_records_in_both` mislabels every value: in all three rows
of the comparison output the value listed under column name `v` is the key
value `1` — not the `v` value the corresponding original row held (`"a"` on
the left, `"b"` on the right).  Even the match flag shown under `v` is `true`
although the two `v` values differ. -/
theorem c3_counterexample :
    validate_data_quality c3Left c3Right ["id"] = .ok ()
    ∧ (compareRecordsInBoth c3Left.cols ["id"]
        (splitBoth (joinTables c3Left c3Right ["id"]))).map
        (fun cdf => cdf.rows.map fun r => lookupName cdf.cols r "v")
      = some [some (Val.int 1), some (Val.int 1), some (Val.bool true)]
    ∧ lookupName c3Left.cols (c3Left.rows.getD 0 []) "v" = some (Val.str "a")
    ∧ lookupName c3Right.cols (c3Right.rows.getD 0 []) "v" = some (Val.str "b") := by
  decide

/-- A table whose non-key column name contains the reserved substring
`_left_table`. -/
def c6Left : Table :=
  ⟨["id", "v_left_table"], ["int64", "object"], [[some (Val.int 1), some (Val.str "x")]]⟩

/-- Right counterpart of `c6Left` with a disjoint key. -/
def c6Right : Table :=
  ⟨["id", "v_left_table"], ["int64", "object"], [[some (Val.int 2), some (Val.str "y")]]⟩

/-- C6: counterexample.  For a validated pair whose column `v_left_table`
happens to contain the disambiguating substring, `split_joined_table`'s
substring filter also captures the right-hand suffixed column and its
suffix-stripping mangles the name, so `left_only` has columns
`[id, v, v_right_table]` instead of the original `[id, v_left_table]` — it is
not the claimed filtered slice of the original left table. -/
theorem c6_counterexample :
    validate_data_quality c6Left c6Right ["id"] = .ok ()
    ∧ splitLeftOnly (joinTables c6Left c6Right ["id"]) ["id"]
        ≠ specLeftOnlySlice c6Left c6Right ["id"]
    ∧ (splitLeftOnly (joinTables c6Left c6Right ["id"]) ["id"]).cols
        = ["id", "v", "v_right_table"]
    ∧ (specLeftOnlySlice c6Left c6Right ["id"]).cols = ["id", "v_left_table"] := by
  decide

/-- A well-formed empty table. -/
def c7Empty : Table :=
  ⟨["id", "v"], ["int64", "object"], []⟩

/-- C7: counterexample.  Comparing a (perfectly valid) empty table with an
exact copy of itself does not yield empty partitions plus all-true
comparison records: the pipeline fails outright, because with zero matched
records `compare_records_in_both` reaches `pd.concat` with an empty list,
which raises.  Likewise, a non-empty table with a column named
`v_left_table` compared against an exact copy of itself also makes the
pipeline fail: the substring-based column selectors of
`compare_records_in_both` come out with different lengths and building the
three-row frame raises. -/
theorem c7_counterexample :
    validate_data_quality c7Empty c7Empty ["id"] = .ok ()
    ∧ runComparison c7Empty c7Empty ["id"] = none
    ∧ validate_data_quality c6Left c6Left ["id"] = .ok ()
    ∧ c6Left.rows ≠ []
    ∧ runComparison c6Left c6Left ["id"] = none := by
  decide

/-! ## String lemmas for the suffix machinery -/

theorem isPrefixOf_self (l : List Char) : l.isPrefixOf l = true := by
  induction l with
  | nil => rfl
  | cons c cs ih => simp [List.isPrefixOf, ih]

theorem isSubChars_append_self (n c : List Char) :
    isSubChars n (c ++ n) = true := by
  induction c with
  | nil =>
    cases n with
    | nil => rfl
    | cons a as => simp [isSubChars, isPrefixOf_self]
  | cons a as ih => simp [isSubChars, ih]

/-- Appending a suffix always makes the suffix a substring. -/
theorem isSub_append_self (n c : String) : isSub n (c ++ n) = true := by
  unfold isSub
  rw [show (c ++ n).toList = c.toList ++ n.toList from rfl]
  exact isSubChars_append_self n.toList c.toList

/-- Right cancellation for string append. -/
theorem string_append_cancel (a b n : String) (h : a ++ n = b ++ n) : a = b := by
  have hd : a.data ++ n.data = b.data ++ n.data := congrArg String.data h
  cases a with
  | mk da =>
    cases b with
    | mk db => exact congrArg String.mk (List.append_cancel_right hd)

theorem stripAllAux_of_not_sub (n : List Char) (fuel : Nat) (l : List Char)
    (h : isSubChars n l = false) : stripAllAux n fuel l = l := by
  induction fuel generalizing l with
  | zero => rfl
  | succ fuel ih =>
    cases l with
    | nil => rfl
    | cons c rest =>
      unfold isSubChars at h
      rw [Bool.or_eq_false_iff] at h
      unfold stripAllAux
      rw [if_neg (by rw [h.1]; exact fun hc => Bool.false_ne_true hc)]
      rw [ih rest h.2]

/-- Stripping a substring that does not occur leaves the string unchanged. -/
theorem removeAll_of_not_sub (n s : String) (h : isSub n s = false) :
    removeAll n s = s := by
  cases s with
  | mk d =>
    unfold removeAll
    rw [stripAllAux_of_not_sub n.toList _ _ h]
    rfl

/-! ## More lookup lemmas -/

theorem lookupName_map_self (cols : List String) (f : String → Option Val)
    (c : String) (hc : c ∈ cols) :
    lookupName cols (cols.map f) c = f c := by
  induction cols with
  | nil => cases hc
  | cons c₀ cs ih =>
    simp only [List.map_cons, lookupName]
    by_cases he : c₀ = c
    · rw [if_pos he, he]
    · rw [if_neg he]
      exact ih (by rcases List.mem_cons.mp hc with h | h; exact absurd h.symm he; exact h)

theorem lookupName_map_cells (cols : List String) (cells : List (Option Val))
    (f : Option Val → Option Val) (c : String) (hc : c ∈ cols)
    (hlen : cells.length = cols.length) :
    lookupName cols (cells.map f) c = f (lookupName cols cells c) := by
  induction cols generalizing cells with
  | nil => cases hc
  | cons c₀ cs ih =>
    cases cells with
    | nil => simp at hlen
    | cons v vs =>
      simp only [List.map_cons, lookupName]
      by_cases he : c₀ = c
      · rw [if_pos he, if_pos he]
      · rw [if_neg he, if_neg he]
        exact ih vs
          (by rcases List.mem_cons.mp hc with h | h; exact absurd h.symm he; exact h)
          (by simpa using hlen)

theorem lookupName_of_const (cols : List String) (cells : List (Option Val))
    (v : Option Val) (c : String) (hc : c ∈ cols)
    (hv : ∀ x ∈ cells, x = v) (hlen : cells.length = cols.length) :
    lookupName cols cells c = v := by
  induction cols generalizing cells with
  | nil => cases hc
  | cons c₀ cs ih =>
    cases cells with
    | nil => simp at hlen
    | cons x xs =>
      simp only [lookupName]
      by_cases he : c₀ = c
      · rw [if_pos he]
        exact hv x (List.mem_cons_self x xs)
      · rw [if_neg he]
        exact ih xs
          (by rcases List.mem_cons.mp hc with h | h; exact absurd h.symm he; exact h)
          (fun x hx => hv x (List.mem_cons_of_mem _ hx)) (by simpa using hlen)

/-- With unique keys, the rows matching a key of the list itself form exactly
the singleton of that row. -/
theorem filter_key_self_singleton {α β : Type} [DecidableEq β] (l : List α)
    (g : α → β) (a : α) (hnd : (l.map g).Nodup) (ha : a ∈ l) :
    (l.filter fun x => decide (g x = g a)) = [a] := by
  induction l with
  | nil => cases ha
  | cons b bs ih =>
    have hnd₂ := List.nodup_cons.mp (show (g b :: bs.map g).Nodup from hnd)
    by_cases hb : g b = g a
    · have hab : a = b := by
        rcases List.mem_cons.mp ha with h | h
        · exact h
        · exact absurd (hb ▸ List.mem_map_of_mem g h) hnd₂.1
      rw [List.filter_cons_of_pos (by simp [hb])]
      rw [filter_key_eq_nil bs g (g a)
        (fun x hx he => hnd₂.1 (by rw [hb, ← he]; exact List.mem_map_of_mem g hx))]
      rw [hab]
    · have hab : a ∈ bs := by
        rcases List.mem_cons.mp ha with h | h
        · exact absurd (h ▸ rfl) hb
        · exact h
      rw [List.filter_cons_of_neg (by simp [hb])]
      exact ih hnd₂.2 hab

/-- The key columns plus the non-key columns are as many as the columns. -/
theorem length_pks_add_nonKeys (cols pks : List String) (hpn : pks.Nodup)
    (hcn : cols.Nodup) (hsub : pks ⊆ cols) :
    pks.length + (nonKeys cols pks).length = cols.length := by
  have hsplit := List.length_eq_length_filter_add
    (fun c => decide (c ∈ pks)) (l := cols)
  have hkeys : (cols.filter fun c => decide (c ∈ pks)).length = pks.length := by
    apply List.Perm.length_eq
    apply (List.perm_ext_iff_of_nodup (hcn.filter _) hpn).mpr
    intro a
    simp only [List.mem_filter, decide_eq_true_eq]
    exact ⟨fun h => h.2, fun h => ⟨hsub h, h⟩⟩
  unfold nonKeys
  omega

/-! ## The substring filters on clean columns -/

theorem filter_lsuffix_suffixified (cols pks : List String) (hcl : CleanCols cols) :
    (cols.map (suffixify pks lsuffix)).filter (fun c => isSub lsuffix c)
      = (nonKeys cols pks).map (· ++ lsuffix) := by
  induction cols with
  | nil => rfl
  | cons c cs ih =>
    have hc := hcl c (List.mem_cons_self c cs)
    have ih₂ := ih fun x hx => hcl x (List.mem_cons_of_mem c hx)
    rw [List.map_cons]
    by_cases hp : c ∈ pks
    · rw [show suffixify pks lsuffix c = c from if_pos hp]
      rw [List.filter_cons_of_neg (by rw [hc.1]; exact Bool.false_ne_true)]
      unfold nonKeys
      rw [List.filter_cons_of_neg (by simp [hp])]
      exact ih₂
    · rw [show suffixify pks lsuffix c = c ++ lsuffix from if_neg hp]
      rw [List.filter_cons_of_pos (isSub_append_self lsuffix c)]
      unfold nonKeys
      rw [List.filter_cons_of_pos (by simp [hp]), List.map_cons]
      exact congrArg (List.cons (c ++ lsuffix)) ih₂

theorem filter_lsuffix_rsuffixed (cols pks : List String) (hcl : CleanCols cols) :
    ((nonKeys cols pks).map (· ++ rsuffix)).filter (fun c => isSub lsuffix c) = [] := by
  apply List.filter_eq_nil_iff.mpr
  intro x hx
  rcases List.mem_map.mp hx with ⟨c, hc, he⟩
  have hcc := hcl c (List.mem_filter.mp hc).1
  rw [← he, hcc.2.2.1]
  exact Bool.false_ne_true

theorem filter_rsuffix_suffixified (cols pks : List String) (hcl : CleanCols cols) :
    (cols.map (suffixify pks lsuffix)).filter (fun c => isSub rsuffix c) = [] := by
  apply List.filter_eq_nil_iff.mpr
  intro x hx
  rcases List.mem_map.mp hx with ⟨c, hc, he⟩
  have hcc := hcl c hc
  unfold suffixify at he
  split at he
  · rw [← he, hcc.2.1]
    exact Bool.false_ne_true
  · rw [← he, hcc.2.2.2.1]
    exact Bool.false_ne_true

theorem filter_rsuffix_rsuffixed (cols pks : List String) :
    ((nonKeys cols pks).map (· ++ rsuffix)).filter (fun c => isSub rsuffix c)
      = (nonKeys cols pks).map (· ++ rsuffix) := by
  apply List.filter_eq_self.mpr
  intro x hx
  rcases List.mem_map.mp hx with ⟨c, _, he⟩
  rw [← he]
  exact isSub_append_self rsuffix c

/-- `left_columns` of `compare_records_in_both` (and the column selection of
the `left_only` split): on clean columns the substring filter captures
exactly the left-suffixed non-key columns. -/
theorem filter_lsuffix_joinedCols (lcols rcols pks : List String)
    (hcl : CleanCols lcols) (hcr : CleanCols rcols) :
    (joinedCols lcols rcols pks).filter (fun c => isSub lsuffix c)
      = (nonKeys lcols pks).map (· ++ lsuffix) := by
  unfold joinedCols
  rw [List.filter_append, List.filter_append]
  rw [filter_lsuffix_suffixified lcols pks hcl, filter_lsuffix_rsuffixed rcols pks hcr]
  rw [show (["_merge"] : List String).filter (fun c => isSub lsuffix c) = [] from rfl]
  simp

/-- `right_columns`: the substring filter captures exactly the right-suffixed
non-key columns. -/
theorem filter_rsuffix_joinedCols (lcols rcols pks : List String)
    (hcl : CleanCols lcols) :
    (joinedCols lcols rcols pks).filter (fun c => isSub rsuffix c)
      = (nonKeys rcols pks).map (· ++ rsuffix) := by
  unfold joinedCols
  rw [List.filter_append, List.filter_append]
  rw [filter_rsuffix_suffixified lcols pks hcl, filter_rsuffix_rsuffixed rcols pks]
  rw [show (["_merge"] : List String).filter (fun c => isSub rsuffix c) = [] from rfl]
  simp

/-- Dropping the indicator column keeps the two suffixed blocks. -/
theorem filter_ne_merge_joinedCols (lcols rcols pks : List String)
    (hm : "_merge" ∉ lcols) :
    (joinedCols lcols rcols pks).filter (fun c => c ≠ "_merge")
      = lcols.map (suffixify pks lsuffix) ++ (nonKeys rcols pks).map (· ++ rsuffix) := by
  unfold joinedCols
  rw [List.filter_append, List.filter_append]
  rw [List.filter_eq_self.mpr (fun x hx => by
    rcases List.mem_map.mp hx with ⟨c, hc, he⟩
    unfold suffixify at he
    split at he
    · simp only [decide_eq_true_eq]
      exact fun hme => hm ((he.trans hme) ▸ hc)
    · simp only [decide_eq_true_eq]
      exact fun hme => append_lsuffix_ne_merge c (he.trans hme))]
  rw [List.filter_eq_self.mpr (fun x hx => by
    rcases List.mem_map.mp hx with ⟨c, _, he⟩
    simp only [decide_eq_true_eq]
    exact fun hme => append_rsuffix_ne_merge c (he.trans hme))]
  rw [show (["_merge"] : List String).filter (fun c => c ≠ "_merge") = [] from rfl]
  simp

/-! ## Reading cells of a merged row by suffixed name -/

theorem suffixify_eq_key_iff (cols pks : List String)
    (k : String) (hk : k ∈ pks) (hck : CleanCol k) :
    ∀ c ∈ cols, suffixify pks lsuffix c = k ↔ c = k := by
  intro c hc
  unfold suffixify
  split
  · exact Iff.rfl
  · constructor
    · intro he
      exfalso
      have := isSub_append_self lsuffix c
      rw [he, hck.1] at this
      exact Bool.false_ne_true this
    · intro he
      rename_i hp
      exact absurd (he ▸ hk) hp

theorem suffixify_eq_lsuffixed_iff (cols pks : List String) (hcl : CleanCols cols)
    (c : String) (hcp : c ∉ pks) :
    ∀ x ∈ cols, suffixify pks lsuffix x = c ++ lsuffix ↔ x = c := by
  intro x hx
  unfold suffixify
  split
  · rename_i hp
    constructor
    · intro he
      exfalso
      have := isSub_append_self lsuffix c
      rw [← he, (hcl x hx).1] at this
      exact Bool.false_ne_true this
    · intro he
      exact absurd (he ▸ hp) hcp
  · constructor
    · exact fun he => string_append_cancel x c lsuffix he
    · exact fun he => congrArg (· ++ lsuffix) he

/-- A key column keeps its name through the merge, so looking it up in a
merged row reads the left block at the original position. -/
theorem lookup_joined_key (lcols rcols pks : List String)
    (lpart rest : List (Option Val)) (k : String) (hk : k ∈ pks) (hkc : k ∈ lcols)
    (hcl : CleanCols lcols) (hlen : lpart.length = lcols.length) :
    lookupName (joinedCols lcols rcols pks) (lpart ++ rest) k
      = lookupName lcols lpart k := by
  unfold joinedCols
  rw [List.append_assoc]
  rw [lookupName_append_left (lcols.map (suffixify pks lsuffix))
    ((nonKeys rcols pks).map (· ++ rsuffix) ++ ["_merge"]) lpart rest k
    (by simp [hlen])
    (show k ∈ lcols.map (suffixify pks lsuffix) from
      List.mem_map.mpr ⟨k, hkc, if_pos hk⟩)]
  exact lookupName_map (suffixify pks lsuffix) lcols lpart k k
    (suffixify_eq_key_iff lcols pks k hk (hcl k hkc))

/-- A left-suffixed non-key column reads the left block at the original
position. -/
theorem lookup_joined_lsuffixed (lcols rcols pks : List String)
    (lpart rest : List (Option Val)) (c : String) (hc : c ∈ lcols) (hcp : c ∉ pks)
    (hcl : CleanCols lcols) (hlen : lpart.length = lcols.length) :
    lookupName (joinedCols lcols rcols pks) (lpart ++ rest) (c ++ lsuffix)
      = lookupName lcols lpart c := by
  unfold joinedCols
  rw [List.append_assoc]
  rw [lookupName_append_left (lcols.map (suffixify pks lsuffix))
    ((nonKeys rcols pks).map (· ++ rsuffix) ++ ["_merge"]) lpart rest (c ++ lsuffix)
    (by simp [hlen])
    (show c ++ lsuffix ∈ lcols.map (suffixify pks lsuffix) from
      List.mem_map.mpr ⟨c, hc, if_neg hcp⟩)]
  exact lookupName_map (suffixify pks lsuffix) lcols lpart c (c ++ lsuffix)
    (suffixify_eq_lsuffixed_iff lcols pks hcl c hcp)

/-- A right-suffixed non-key column reads the right row's cell for the
unsuffixed column. -/
theorem lookup_joined_rsuffixed (lcols rcols pks : List String)
    (lpart : List (Option Val)) (rr : List (Option Val)) (t : Option Val)
    (c : String) (hc : c ∈ rcols) (hcp : c ∉ pks)
    (hcl : CleanCols lcols) (hlen : lpart.length = lcols.length) :
    lookupName (joinedCols lcols rcols pks)
      (lpart ++ nonKeyCells rcols pks rr ++ [t]) (c ++ rsuffix)
      = lookupName rcols rr c := by
  unfold joinedCols
  rw [List.append_assoc, List.append_assoc]
  rw [lookupName_append_right (lcols.map (suffixify pks lsuffix))
    ((nonKeys rcols pks).map (· ++ rsuffix) ++ ["_merge"]) lpart
    (nonKeyCells rcols pks rr ++ [t]) (c ++ rsuffix) (by simp [hlen]) (by
    intro hmem
    rcases List.mem_map.mp hmem with ⟨x, hx, he⟩
    unfold suffixify at he
    split at he
    · have hss := isSub_append_self rsuffix c
      rw [← he, (hcl x hx).2.1] at hss
      exact Bool.false_ne_true hss
    · have hss := isSub_append_self rsuffix c
      rw [← he, (hcl x hx).2.2.2.1] at hss
      exact Bool.false_ne_true hss)]
  have hmem : c ++ rsuffix ∈ (nonKeys rcols pks).map (· ++ rsuffix) :=
    List.mem_map.mpr ⟨c, List.mem_filter.mpr ⟨hc, by simp [hcp]⟩, rfl⟩
  rw [lookupName_append_left ((nonKeys rcols pks).map (· ++ rsuffix)) ["_merge"]
    (nonKeyCells rcols pks rr) [t] (c ++ rsuffix) (by simp [nonKeyCells]) hmem]
  rw [lookupName_map (· ++ rsuffix) (nonKeys rcols pks) _ c (c ++ rsuffix)
    (fun x _ => ⟨fun he => string_append_cancel x c rsuffix he,
      fun he => congrArg (· ++ rsuffix) he⟩)]
  exact lookupName_map_self (nonKeys rcols pks) (lookupName rcols rr) c
    (List.mem_filter.mpr ⟨hc, by simp [hcp]⟩)

theorem mem_nonKeys (cols pks : List String) (c : String) :
    c ∈ nonKeys cols pks ↔ c ∈ cols ∧ c ∉ pks := by
  simp [nonKeys]

/-- Stripping the left suffix recovers the original selected names. -/
theorem strip_lsuffix_columns (cols pks : List String) (hcl : CleanCols cols)
    (hsub : pks ⊆ cols) :
    (pks ++ (nonKeys cols pks).map (· ++ lsuffix)).map (removeAll lsuffix)
      = pks ++ nonKeys cols pks := by
  rw [List.map_append, List.map_map]
  congr 1
  · rw [List.map_congr_left
      (fun k hk => removeAll_of_not_sub lsuffix k (hcl k (hsub hk)).1)]
    exact List.map_id pks
  · rw [List.map_congr_left (fun c hc => by
      show removeAll lsuffix (c ++ lsuffix) = c
      exact (hcl c ((mem_nonKeys cols pks c).mp hc).1).2.2.2.2.1)]
    exact List.map_id _

/-- Stripping the right suffix recovers the original selected names. -/
theorem strip_rsuffix_columns (cols pks : List String) (hcl : CleanCols cols)
    (hsub : pks ⊆ cols) :
    (pks ++ (nonKeys cols pks).map (· ++ rsuffix)).map (removeAll rsuffix)
      = pks ++ nonKeys cols pks := by
  rw [List.map_append, List.map_map]
  congr 1
  · rw [List.map_congr_left
      (fun k hk => removeAll_of_not_sub rsuffix k (hcl k (hsub hk)).2.1)]
    exact List.map_id pks
  · rw [List.map_congr_left (fun c hc => by
      show removeAll rsuffix (c ++ rsuffix) = c
      exact (hcl c ((mem_nonKeys cols pks c).mp hc).1).2.2.2.2.2)]
    exact List.map_id _

/-- C6 (amended): corrected.  Provided no column name interferes with the
suffix machinery (`CleanCols`), the `left_only` result equals the claimed
filtered slice of the original left table — the left rows whose key tuple
does not occur on the right, under the key columns plus the non-key columns
with their original names — and symmetrically for `right_only`.  (Without
that cleanliness proviso the claim fails, see the counterexample.) -/
theorem c6_amended_split_slices (L R : Table) (pks : List String)
    (h : ValidInput L R pks) (hcl : CleanCols L.cols) :
    splitLeftOnly (joinTables L R pks) pks = specLeftOnlySlice L R pks
    ∧ splitRightOnly (joinTables L R pks) pks = specRightOnlySlice L R pks := by
  obtain ⟨hcolseq, hdt, ndL, ndR⟩ := validate_ok_facts L R pks h.2.2.2.2.2
  have hL := h.1
  have hR := h.2.1
  have hsub := h.2.2.1
  have hm := h.2.2.2.2.1
  have hcr : CleanCols R.cols := hcolseq ▸ hcl
  have hcolsrfl : (filterTag (joinTables L R pks) "left_only").cols
      = joinedCols L.cols R.cols pks := rfl
  constructor
  · simp only [splitLeftOnly, selectCols, specLeftOnlySlice]
    rw [hcolsrfl, filter_lsuffix_joinedCols L.cols R.cols pks hcl hcr]
    congr 1
    · exact strip_lsuffix_columns L.cols pks hcl hsub
    · rw [filterTag_join_left_only L R pks hL hm]
      rw [List.filter_congr (fun lr _ => noMatch_iff L R pks lr)]
      rw [List.map_map]
      apply List.map_congr_left
      intro lr hlr
      have hlen : lr.length = L.cols.length := hL.2.2 lr (List.mem_filter.mp hlr).1
      show (pks ++ (nonKeys L.cols pks).map (· ++ lsuffix)).map
          (lookupName (joinedCols L.cols R.cols pks) (mkLeftOnlyRow R.cols pks lr))
        = (pks ++ nonKeys L.cols pks).map (lookupName L.cols lr)
      rw [List.map_append, List.map_append, List.map_map]
      congr 1
      · apply List.map_congr_left
        intro k hk
        rw [show mkLeftOnlyRow R.cols pks lr
            = lr ++ ((nonKeys R.cols pks).map (fun _ => none)
              ++ [some (Val.str "left_only")]) from by
          unfold mkLeftOnlyRow; rw [List.append_assoc]]
        exact lookup_joined_key L.cols R.cols pks lr _ k hk (hsub hk) hcl hlen
      · apply List.map_congr_left
        intro c hc
        rcases (mem_nonKeys L.cols pks c).mp hc with ⟨hcc, hcp⟩
        show lookupName (joinedCols L.cols R.cols pks)
            (mkLeftOnlyRow R.cols pks lr) (c ++ lsuffix) = lookupName L.cols lr c
        rw [show mkLeftOnlyRow R.cols pks lr
            = lr ++ ((nonKeys R.cols pks).map (fun _ => none)
              ++ [some (Val.str "left_only")]) from by
          unfold mkLeftOnlyRow; rw [List.append_assoc]]
        exact lookup_joined_lsuffixed L.cols R.cols pks lr _ c hcc hcp hcl hlen
  · simp only [splitRightOnly, selectCols, specRightOnlySlice]
    rw [show (filterTag (joinTables L R pks) "right_only").cols
        = joinedCols L.cols R.cols pks from rfl]
    rw [filter_rsuffix_joinedCols L.cols R.cols pks hcl]
    congr 1
    · exact hcolseq ▸ strip_rsuffix_columns R.cols pks hcr (hcolseq ▸ hsub)
    · rw [filterTag_join_right_only L R pks hL hm]
      rw [List.map_map]
      apply List.map_congr_left
      intro rr hrr
      show (pks ++ (nonKeys R.cols pks).map (· ++ rsuffix)).map
          (lookupName (joinedCols L.cols R.cols pks)
            (mkRightOnlyRow L.cols R.cols pks rr))
        = (pks ++ nonKeys R.cols pks).map (lookupName R.cols rr)
      rw [List.map_append, List.map_append, List.map_map]
      congr 1
      · apply List.map_congr_left
        intro k hk
        show lookupName (joinedCols L.cols R.cols pks)
            (mkRightOnlyRow L.cols R.cols pks rr) k = lookupName R.cols rr k
        rw [show mkRightOnlyRow L.cols R.cols pks rr
            = (L.cols.map fun c =>
                if c ∈ pks then lookupName R.cols rr c else none)
              ++ (nonKeyCells R.cols pks rr ++ [some (Val.str "right_only")]) from by
          unfold mkRightOnlyRow; rw [List.append_assoc]]
        rw [lookup_joined_key L.cols R.cols pks _ _ k hk (hsub hk) hcl
          (List.length_map _ _)]
        rw [lookupName_map_self L.cols _ k (hsub hk)]
        exact if_pos hk
      · apply List.map_congr_left
        intro c hc
        rcases (mem_nonKeys R.cols pks c).mp hc with ⟨hcc, hcp⟩
        show lookupName (joinedCols L.cols R.cols pks)
            (mkRightOnlyRow L.cols R.cols pks rr) (c ++ rsuffix)
          = lookupName R.cols rr c
        exact lookup_joined_rsuffixed L.cols R.cols pks _ rr _ c hcc hcp hcl
          (List.length_map _ _)

/-! ## Lemmas for the field comparison -/

theorem isEmpty_map {α β : Type} (l : List α) (f : α → β) :
    (l.map f).isEmpty = l.isEmpty := by
  cases l <;> rfl

theorem flatMap_map_eq {α β γ : Type} (l : List α) (f : α → β) (g : β → List γ) :
    (l.map f).flatMap g = l.flatMap fun x => g (f x) := by
  induction l with
  | nil => rfl
  | cons a as ih => simp only [List.map_cons, List.flatMap_cons, ih]

theorem flatMap_assoc_eq {α β γ : Type} (l : List α) (f : α → List β)
    (g : β → List γ) :
    (l.flatMap f).flatMap g = l.flatMap fun x => (f x).flatMap g := by
  induction l with
  | nil => rfl
  | cons a as ih =>
    simp only [List.flatMap_cons, List.flatMap_append, ih]

theorem zipWith_map_same {α β γ : Type} (l : List α) (u v : α → β)
    (f : β → β → γ) :
    List.zipWith f (l.map u) (l.map v) = l.map fun x => f (u x) (v x) := by
  induction l with
  | nil => rfl
  | cons a as ih => simp only [List.map_cons, List.zipWith_cons_cons, ih]

/-- Looking up a key column in the merged frame with the indicator column
dropped. -/
theorem lookup_AB_key (lcols rcols pks : List String) (a b : List (Option Val))
    (k : String) (hk : k ∈ pks) (hkc : k ∈ lcols) (hck : CleanCol k)
    (ha : a.length = lcols.length) :
    lookupName (lcols.map (suffixify pks lsuffix)
        ++ (nonKeys rcols pks).map (· ++ rsuffix)) (a ++ b) k
      = lookupName lcols a k := by
  rw [lookupName_append_left (lcols.map (suffixify pks lsuffix))
    ((nonKeys rcols pks).map (· ++ rsuffix)) a b k (by simp [ha])
    (show k ∈ lcols.map (suffixify pks lsuffix) from
      List.mem_map.mpr ⟨k, hkc, if_pos hk⟩)]
  exact lookupName_map (suffixify pks lsuffix) lcols a k k
    (suffixify_eq_key_iff lcols pks k hk hck)

/-- Looking up a left-suffixed column in the merged frame with the indicator
column dropped. -/
theorem lookup_AB_lsuffixed (lcols rcols pks : List String)
    (a b : List (Option Val)) (c : String) (hc : c ∈ lcols) (hcp : c ∉ pks)
    (hcl : CleanCols lcols) (ha : a.length = lcols.length) :
    lookupName (lcols.map (suffixify pks lsuffix)
        ++ (nonKeys rcols pks).map (· ++ rsuffix)) (a ++ b) (c ++ lsuffix)
      = lookupName lcols a c := by
  rw [lookupName_append_left (lcols.map (suffixify pks lsuffix))
    ((nonKeys rcols pks).map (· ++ rsuffix)) a b (c ++ lsuffix) (by simp [ha])
    (show c ++ lsuffix ∈ lcols.map (suffixify pks lsuffix) from
      List.mem_map.mpr ⟨c, hc, if_neg hcp⟩)]
  exact lookupName_map (suffixify pks lsuffix) lcols a c (c ++ lsuffix)
    (suffixify_eq_lsuffixed_iff lcols pks hcl c hcp)

/-- Looking up a right-suffixed column in the merged frame with the indicator
column dropped, the right block holding `g` of each non-key column. -/
theorem lookup_AB_rsuffixed (lcols rcols pks : List String)
    (a : List (Option Val)) (g : String → Option Val) (c : String)
    (hc : c ∈ rcols) (hcp : c ∉ pks) (hcl : CleanCols lcols)
    (ha : a.length = lcols.length) :
    lookupName (lcols.map (suffixify pks lsuffix)
        ++ (nonKeys rcols pks).map (· ++ rsuffix))
      (a ++ (nonKeys rcols pks).map g) (c ++ rsuffix) = g c := by
  rw [lookupName_append_right (lcols.map (suffixify pks lsuffix))
    ((nonKeys rcols pks).map (· ++ rsuffix)) a ((nonKeys rcols pks).map g)
    (c ++ rsuffix) (by simp [ha]) (by
    intro hmem
    rcases List.mem_map.mp hmem with ⟨x, hx, he⟩
    unfold suffixify at he
    split at he
    · have hss := isSub_append_self rsuffix c
      rw [← he, (hcl x hx).2.1] at hss
      exact Bool.false_ne_true hss
    · have hss := isSub_append_self rsuffix c
      rw [← he, (hcl x hx).2.2.2.1] at hss
      exact Bool.false_ne_true hss)]
  rw [lookupName_map (· ++ rsuffix) (nonKeys rcols pks) _ c (c ++ rsuffix)
    (fun x _ => ⟨fun he => string_append_cancel x c rsuffix he,
      fun he => congrArg (· ++ rsuffix) he⟩)]
  exact lookupName_map_self (nonKeys rcols pks) g c
    (List.mem_filter.mpr ⟨hc, by simp [hcp]⟩)

/-- The label cell of a positionally renamed presentation row. -/
theorem lookup_presentation_label (cols : List String) (w : List (Option Val))
    (lbl : Option Val) (hlen : w.length = cols.length)
    (hcomp : "comparison" ∉ cols) :
    lookupName (cols ++ ["comparison"]) (w ++ [lbl]) "comparison" = lbl := by
  rw [lookupName_append_right cols ["comparison"] w [lbl] "comparison" hlen hcomp]
  simp [lookupName]

/-- The named cells of a positionally renamed presentation row: each original
column name reads the data block at the position that name has in the rename
list (whether or not that is the position its value came from). -/
theorem lookup_presentation_cols (cols : List String) (w : List (Option Val))
    (lbl : Option Val) (hlen : w.length = cols.length) :
    List.map (lookupName (cols ++ ["comparison"]) (w ++ [lbl])) cols
      = cols.map (lookupName cols w) := by
  apply List.map_congr_left
  intro c hc
  exact lookupName_append_left cols ["comparison"] w [lbl] c hlen hc

/-- The comparison output as the source computes it, before any claim about
which column name labels which value: one three-row block per matched pair,
each presentation row renamed to the original column names positionally from
the keys-first data order `pks ++ nonKeys`. -/
def rawComparisonTable (left right : Table) (pks : List String) : DF :=
  ⟨"comparison" :: left.cols,
   left.rows.flatMap fun lr =>
     (right.rows.filter fun rr =>
        decide (keyOf right.cols pks rr = keyOf left.cols pks lr)).flatMap
       fun rr =>
         [some (Val.str "left_table") :: left.cols.map (lookupName left.cols
            ((pks ++ nonKeys left.cols pks).map
              fun c => fillCell (lookupName left.cols lr c))),
          some (Val.str "right_table") :: left.cols.map (lookupName left.cols
            ((pks ++ nonKeys left.cols pks).map (specRightVal left right pks lr rr))),
          some (Val.str "comparison_result") :: left.cols.map (lookupName left.cols
            ((pks ++ nonKeys left.cols pks).map fun c =>
              some (Val.bool (eqCell (fillCell (lookupName left.cols lr c))
                (specRightVal left right pks lr rr c)))))]⟩


/-- Selecting the non-indicator columns of a matched merged row recovers the
left row followed by the right row's non-key cells. -/
theorem noMerge_row_mkBothRow (L R : Table) (pks : List String)
    (hcl : CleanCols L.cols) (hnd : L.cols.Nodup)
    (lr rr : List (Option Val)) (hlen : lr.length = L.cols.length) :
    (L.cols.map (suffixify pks lsuffix)
        ++ (nonKeys R.cols pks).map (· ++ rsuffix)).map
        (lookupName (joinedCols L.cols R.cols pks) (mkBothRow R.cols pks lr rr))
      = lr ++ nonKeyCells R.cols pks rr := by
  have hrow : mkBothRow R.cols pks lr rr
      = lr ++ (nonKeyCells R.cols pks rr ++ [some (Val.str "both")]) := by
    unfold mkBothRow
    rw [List.append_assoc]
  rw [List.map_append]
  congr 1
  · rw [List.map_map]
    rw [List.map_congr_left (fun c hc => show
        (lookupName (joinedCols L.cols R.cols pks) (mkBothRow R.cols pks lr rr)
          ∘ suffixify pks lsuffix) c = lookupName L.cols lr c from by
      by_cases hp : c ∈ pks
      · show lookupName (joinedCols L.cols R.cols pks) (mkBothRow R.cols pks lr rr)
          (suffixify pks lsuffix c) = lookupName L.cols lr c
        rw [show suffixify pks lsuffix c = c from if_pos hp, hrow]
        exact lookup_joined_key L.cols R.cols pks lr _ c hp hc hcl hlen
      · show lookupName (joinedCols L.cols R.cols pks) (mkBothRow R.cols pks lr rr)
          (suffixify pks lsuffix c) = lookupName L.cols lr c
        rw [show suffixify pks lsuffix c = c ++ lsuffix from if_neg hp, hrow]
        exact lookup_joined_lsuffixed L.cols R.cols pks lr _ c hc hp hcl hlen)]
    exact map_lookupName_self L.cols lr hnd hlen
  · rw [List.map_map]
    show (nonKeys R.cols pks).map _ = nonKeyCells R.cols pks rr
    unfold nonKeyCells
    apply List.map_congr_left
    intro c hc
    rcases (mem_nonKeys R.cols pks c).mp hc with ⟨hcc, hcp⟩
    show lookupName (joinedCols L.cols R.cols pks) (mkBothRow R.cols pks lr rr)
        (c ++ rsuffix) = lookupName R.cols rr c
    rw [show mkBothRow R.cols pks lr rr
      = lr ++ nonKeyCells R.cols pks rr ++ [some (Val.str "both")] from rfl]
    exact lookup_joined_rsuffixed L.cols R.cols pks lr rr _ c hcc hcp hcl hlen

/-- The `left_row` of one comparison record, as a function of the original
left row. -/
theorem lrow_eq (L R : Table) (pks : List String) (hcl : CleanCols L.cols)
    (lr rr : List (Option Val)) (hlen : lr.length = L.cols.length)
    (hsub : pks ⊆ L.cols) :
    (pks ++ (nonKeys L.cols pks).map (· ++ lsuffix)).map
        (lookupName (L.cols.map (suffixify pks lsuffix)
            ++ (nonKeys R.cols pks).map (· ++ rsuffix))
          (lr.map fillCell ++ (nonKeyCells R.cols pks rr).map fillCell))
      = (pks ++ nonKeys L.cols pks).map
          fun c => fillCell (lookupName L.cols lr c) := by
  rw [List.map_append, List.map_append]
  congr 1
  · apply List.map_congr_left
    intro k hk
    rw [lookup_AB_key L.cols R.cols pks (lr.map fillCell) _ k hk (hsub hk)
      (hcl k (hsub hk)) (by simp [hlen])]
    exact lookupName_map_cells L.cols lr fillCell k (hsub hk) hlen
  · rw [List.map_map]
    apply List.map_congr_left
    intro c hc
    rcases (mem_nonKeys L.cols pks c).mp hc with ⟨hcc, hcp⟩
    show lookupName (L.cols.map (suffixify pks lsuffix)
        ++ (nonKeys R.cols pks).map (· ++ rsuffix))
        (lr.map fillCell ++ (nonKeyCells R.cols pks rr).map fillCell)
        (c ++ lsuffix) = fillCell (lookupName L.cols lr c)
    rw [lookup_AB_lsuffixed L.cols R.cols pks (lr.map fillCell) _ c hcc hcp hcl
      (by simp [hlen])]
    exact lookupName_map_cells L.cols lr fillCell c hcc hlen

/-- The `right_row` of one comparison record: key cells from the merged key
columns, other cells from the right row. -/
theorem rrow_eq (L R : Table) (pks : List String) (hcl : CleanCols L.cols)
    (lr rr : List (Option Val)) (hlen : lr.length = L.cols.length)
    (hsub : pks ⊆ L.cols) :
    (pks ++ (nonKeys R.cols pks).map (· ++ rsuffix)).map
        (lookupName (L.cols.map (suffixify pks lsuffix)
            ++ (nonKeys R.cols pks).map (· ++ rsuffix))
          (lr.map fillCell ++ (nonKeyCells R.cols pks rr).map fillCell))
      = (pks ++ nonKeys R.cols pks).map (specRightVal L R pks lr rr) := by
  have hb : (nonKeyCells R.cols pks rr).map fillCell
      = (nonKeys R.cols pks).map
          (fun x => fillCell (lookupName R.cols rr x)) := by
    unfold nonKeyCells
    rw [List.map_map]
    rfl
  rw [List.map_append, List.map_append]
  congr 1
  · apply List.map_congr_left
    intro k hk
    rw [lookup_AB_key L.cols R.cols pks (lr.map fillCell) _ k hk (hsub hk)
      (hcl k (hsub hk)) (by simp [hlen])]
    rw [lookupName_map_cells L.cols lr fillCell k (hsub hk) hlen]
    show fillCell (lookupName L.cols lr k) = specRightVal L R pks lr rr k
    unfold specRightVal
    rw [if_pos hk]
  · rw [List.map_map]
    apply List.map_congr_left
    intro c hc
    rcases (mem_nonKeys R.cols pks c).mp hc with ⟨hcc, hcp⟩
    show lookupName (L.cols.map (suffixify pks lsuffix)
        ++ (nonKeys R.cols pks).map (· ++ rsuffix))
        (lr.map fillCell ++ (nonKeyCells R.cols pks rr).map fillCell)
        (c ++ rsuffix) = specRightVal L R pks lr rr c
    rw [hb]
    rw [lookup_AB_rsuffixed L.cols R.cols pks (lr.map fillCell)
      (fun x => fillCell (lookupName R.cols rr x)) c hcc hcp hcl (by simp [hlen])]
    unfold specRightVal
    rw [if_neg hcp]


/-- The field comparison, in closed form: on a validated pair with clean
column names, no column called `comparison`, and the primary keys forming the
leading columns (`pks ++ nonKeys = cols`), `compare_records_in_both` returns
exactly the specification-side comparison table (or fails when there is no
matched record). -/
theorem compare_shape (L R : Table) (pks : List String)
    (h : ValidInput L R pks) (hcl : CleanCols L.cols)
    (hcomp : "comparison" ∉ L.cols) :
    compareRecordsInBoth L.cols pks (splitBoth (joinTables L R pks))
      = if (splitBoth (joinTables L R pks)).rows.isEmpty then none
        else some (rawComparisonTable L R pks) := by
  obtain ⟨hcolseq, hdt, ndL, ndR⟩ := validate_ok_facts L R pks h.2.2.2.2.2
  have hL := h.1
  have hsub := h.2.2.1
  have hpnd := h.2.2.2.1
  have hm := h.2.2.2.2.1
  have hcr : CleanCols R.cols := hcolseq ▸ hcl
  simp only [compareRecordsInBoth]
  rw [show (splitBoth (joinTables L R pks)).cols = joinedCols L.cols R.cols pks from rfl]
  rw [filter_lsuffix_joinedCols L.cols R.cols pks hcl hcr]
  rw [filter_rsuffix_joinedCols L.cols R.cols pks hcl]
  rw [filter_ne_merge_joinedCols L.cols R.cols pks hm]
  have hnkeq : nonKeys L.cols pks = nonKeys R.cols pks := by rw [hcolseq]
  rw [show (selectCols (splitBoth (joinTables L R pks))
      (List.map (suffixify pks lsuffix) L.cols
        ++ (nonKeys R.cols pks).map (· ++ rsuffix))).cols
    = L.cols.map (suffixify pks lsuffix)
      ++ (nonKeys R.cols pks).map (· ++ rsuffix) from rfl]
  rw [if_neg (show ¬ (pks ++ (nonKeys L.cols pks).map (· ++ lsuffix)).length
      ≠ (pks ++ (nonKeys R.cols pks).map (· ++ rsuffix)).length from
    fun hc => hc (by rw [hnkeq]; simp))]
  rw [show (selectCols (splitBoth (joinTables L R pks))
      (List.map (suffixify pks lsuffix) L.cols
        ++ (nonKeys R.cols pks).map (· ++ rsuffix))).rows
    = (splitBoth (joinTables L R pks)).rows.map (fun r =>
        (L.cols.map (suffixify pks lsuffix)
          ++ (nonKeys R.cols pks).map (· ++ rsuffix)).map
          (lookupName (joinedCols L.cols R.cols pks) r)) from rfl]
  rw [List.map_map, isEmpty_map]
  by_cases hE : (splitBoth (joinTables L R pks)).rows.isEmpty
  · rw [if_pos hE, if_pos hE]
  · rw [if_neg hE, if_neg hE]
    rw [if_neg (show ¬ (pks ++ (nonKeys L.cols pks).map (· ++ lsuffix)).length
        ≠ L.cols.length from fun hc => hc (by
      simp only [List.length_append, List.length_map]
      exact length_pks_add_nonKeys L.cols pks hpnd hL.1 hsub))]
    congr 1
    simp only [selectCols, rawComparisonTable]
    congr 1
    rw [List.map_flatMap, flatMap_map_eq]
    rw [show (splitBoth (joinTables L R pks)).rows
      = (filterTag (joinTables L R pks) "both").rows from rfl]
    rw [filterTag_join_both L R pks hL hm]
    rw [flatMap_assoc_eq]
    apply List.flatMap_congr
    intro lr hlr
    rw [flatMap_map_eq]
    apply List.flatMap_congr
    intro rr hrr
    have hlen2 : lr.length = L.cols.length := hL.2.2 lr hlr
    have hF : ((fun r => List.map fillCell r) ∘ fun r =>
        List.map (lookupName (joinedCols L.cols R.cols pks) r)
          (List.map (suffixify pks lsuffix) L.cols
            ++ List.map (fun x => x ++ rsuffix) (nonKeys R.cols pks)))
        (mkBothRow R.cols pks lr rr)
        = lr.map fillCell ++ (nonKeyCells R.cols pks rr).map fillCell := by
      show List.map fillCell
          (List.map (lookupName (joinedCols L.cols R.cols pks)
              (mkBothRow R.cols pks lr rr))
            (List.map (suffixify pks lsuffix) L.cols
              ++ List.map (fun x => x ++ rsuffix) (nonKeys R.cols pks)))
        = lr.map fillCell ++ (nonKeyCells R.cols pks rr).map fillCell
      rw [show List.map (lookupName (joinedCols L.cols R.cols pks)
            (mkBothRow R.cols pks lr rr))
          (List.map (suffixify pks lsuffix) L.cols
            ++ List.map (fun x => x ++ rsuffix) (nonKeys R.cols pks))
        = lr ++ nonKeyCells R.cols pks rr from
        noMerge_row_mkBothRow L R pks hcl hL.1 lr rr hlen2]
      rw [List.map_append]
    rw [hF]
    rw [show List.map (lookupName (List.map (suffixify pks lsuffix) L.cols
          ++ List.map (fun x => x ++ rsuffix) (nonKeys R.cols pks))
        (lr.map fillCell ++ (nonKeyCells R.cols pks rr).map fillCell))
        (pks ++ List.map (fun x => x ++ lsuffix) (nonKeys L.cols pks))
      = (pks ++ nonKeys L.cols pks).map
          (fun c => fillCell (lookupName L.cols lr c)) from
      lrow_eq L R pks hcl lr rr hlen2 hsub]
    rw [show List.map (lookupName (List.map (suffixify pks lsuffix) L.cols
          ++ List.map (fun x => x ++ rsuffix) (nonKeys R.cols pks))
        (lr.map fillCell ++ (nonKeyCells R.cols pks rr).map fillCell))
        (pks ++ List.map (fun x => x ++ rsuffix) (nonKeys R.cols pks))
      = (pks ++ nonKeys R.cols pks).map (specRightVal L R pks lr rr) from
      rrow_eq L R pks hcl lr rr hlen2 hsub]
    rw [← hnkeq]
    rw [zipWith_map_same]
    have hXlen : ∀ g : String → Option Val,
        ((pks ++ nonKeys L.cols pks).map g).length = L.cols.length := by
      intro g
      simp only [List.length_map, List.length_append]
      exact length_pks_add_nonKeys L.cols pks hpnd hL.1 hsub
    simp only [List.map_cons, List.map_nil]
    rw [lookup_presentation_label L.cols _ (some (Val.str "left_table"))
      (hXlen _) hcomp]
    rw [lookup_presentation_label L.cols _ (some (Val.str "right_table"))
      (hXlen _) hcomp]
    rw [lookup_presentation_label L.cols _ (some (Val.str "comparison_result"))
      (hXlen _) hcomp]
    rw [lookup_presentation_cols L.cols _ (some (Val.str "left_table")) (hXlen _)]
    rw [lookup_presentation_cols L.cols _ (some (Val.str "right_table")) (hXlen _)]
    rw [lookup_presentation_cols L.cols _ (some (Val.str "comparison_result"))
      (hXlen _)]


/-- The field comparison, in closed form: when additionally the primary keys
form the leading columns (`pks ++ nonKeys = cols`), the positional rename is
harmless and `compare_records_in_both` returns exactly the
specification-side comparison table (or fails when there is no matched
record). -/
theorem compare_eq_spec (L R : Table) (pks : List String)
    (h : ValidInput L R pks) (hcl : CleanCols L.cols)
    (hcomp : "comparison" ∉ L.cols)
    (hkf : pks ++ nonKeys L.cols pks = L.cols) :
    compareRecordsInBoth L.cols pks (splitBoth (joinTables L R pks))
      = if (splitBoth (joinTables L R pks)).rows.isEmpty then none
        else some (specComparisonTable L R pks) := by
  rw [compare_shape L R pks h hcl hcomp]
  have hmaps : ∀ f : String → Option Val,
      L.cols.map (lookupName L.cols ((pks ++ nonKeys L.cols pks).map f))
        = L.cols.map f := by
    intro f
    rw [hkf]
    apply List.map_congr_left
    intro c hc
    exact lookupName_map_self L.cols f c hc
  have hraw : rawComparisonTable L R pks = specComparisonTable L R pks := by
    unfold rawComparisonTable specComparisonTable specLeftRow specRightRow specFlagsRow
    congr 1
    apply List.flatMap_congr
    intro lr _
    apply List.flatMap_congr
    intro rr _
    rw [hmaps, hmaps, hmaps]
  rw [hraw]

/-! ## Claim C3 (amended) -/

/-- C3 (amended): corrected.  The claim as stated fails (see the
counterexample): the positional rename labels the keys-first data order with
the original column order.  What holds is: provided the primary-key columns
form the leading columns (`pks ++ nonKeys = cols`), no column name contains
the merge suffixes, and no column is called `comparison`, the comparison
output is exactly the specification-side table, in which every value sits
under the column name it held in the corresponding original row — up to the
documented null → empty-string normalisation, which is also the only way the
displayed value can differ from the original one. -/
theorem c3_amended_labels_correct (L R : Table) (pks : List String)
    (h : ValidInput L R pks) (hcl : CleanCols L.cols)
    (hcomp : "comparison" ∉ L.cols)
    (hkf : pks ++ nonKeys L.cols pks = L.cols) :
    compareRecordsInBoth L.cols pks (splitBoth (joinTables L R pks))
      = if (splitBoth (joinTables L R pks)).rows.isEmpty then none
        else some (specComparisonTable L R pks) :=
  compare_eq_spec L R pks h hcl hcomp hkf

/-- Witness for C3 (amended): the spec §8 scenario has its key first; the
comparison output is the specification table. -/
theorem c3_witness :
    ValidInput exL exR ["id"] ∧ CleanCols exL.cols ∧ "comparison" ∉ exL.cols
    ∧ ["id"] ++ nonKeys exL.cols ["id"] = exL.cols
    ∧ compareRecordsInBoth exL.cols ["id"] (splitBoth (joinTables exL exR ["id"]))
      = if (splitBoth (joinTables exL exR ["id"])).rows.isEmpty then none
        else some (specComparisonTable exL exR ["id"]) :=
  ⟨by decide, by decide, by decide, by decide,
    c3_amended_labels_correct exL exR ["id"] (by decide) (by decide) (by decide)
      (by decide)⟩

/-! ## Claim C4 -/

/-- C4: confirmed.  For a matched record and a non-key column whose value is
null on both sides, the field comparator normalises both nulls to the empty
string and flags the column as a match: the output equals the specification
table, the record's `comparison_result` row is in it, and that row carries
`true` under the column.  (Stated under the same schema side conditions as
C3's amended form, which make "the flag for that column" well defined.) -/
theorem c4_both_null_flag_true (L R : Table) (pks : List String)
    (h : ValidInput L R pks) (hcl : CleanCols L.cols)
    (hcomp : "comparison" ∉ L.cols)
    (hkf : pks ++ nonKeys L.cols pks = L.cols)
    (lr : List (Option Val)) (hlr : lr ∈ L.rows)
    (rr : List (Option Val)) (hrr : rr ∈ R.rows)
    (hkey : keyOf R.cols pks rr = keyOf L.cols pks lr)
    (c : String) (hc : c ∈ L.cols) (hcp : c ∉ pks)
    (hnl : lookupName L.cols lr c = none)
    (hnr : lookupName R.cols rr c = none) :
    compareRecordsInBoth L.cols pks (splitBoth (joinTables L R pks))
      = some (specComparisonTable L R pks)
    ∧ specFlagsRow L R pks lr rr ∈ (specComparisonTable L R pks).rows
    ∧ lookupName ("comparison" :: L.cols) (specFlagsRow L R pks lr rr) c
      = some (Val.bool true) := by
  have hmem : mkBothRow R.cols pks lr rr ∈ (splitBoth (joinTables L R pks)).rows := by
    rw [show (splitBoth (joinTables L R pks)).rows
      = (filterTag (joinTables L R pks) "both").rows from rfl]
    rw [filterTag_join_both L R pks h.1 h.2.2.2.2.1]
    exact List.mem_flatMap.mpr ⟨lr, hlr,
      List.mem_map_of_mem _ (List.mem_filter.mpr ⟨hrr, by simp [hkey]⟩)⟩
  refine ⟨?_, ?_, ?_⟩
  · rw [compare_eq_spec L R pks h hcl hcomp hkf]
    rw [List.isEmpty_eq_false.mpr (List.ne_nil_of_mem hmem)]
    rfl
  · unfold specComparisonTable
    exact List.mem_flatMap.mpr ⟨lr, hlr,
      List.mem_flatMap.mpr ⟨rr, List.mem_filter.mpr ⟨hrr, by simp [hkey]⟩,
        by simp [specFlagsRow]⟩⟩
  · unfold specFlagsRow
    rw [lookupName_cons_ne "comparison" L.cols _ _ c
      (fun he => hcomp (he ▸ hc))]
    rw [lookupName_map_self L.cols _ c hc]
    rw [hnl]
    unfold specRightVal
    rw [if_neg hcp, hnr]
    rfl

/-- Tables with a shared key whose `v` is null on both sides. -/
def c4Left : Table :=
  ⟨["id", "v"], ["int64", "object"], [[some (Val.int 1), none]]⟩

/-- Right counterpart of `c4Left`: same key, also null `v`. -/
def c4Right : Table :=
  ⟨["id", "v"], ["int64", "object"], [[some (Val.int 1), none]]⟩

/-- Witness for C4: the matched record with `v` null on both sides gets flag
`true` under `v`. -/
theorem c4_witness :
    ValidInput c4Left c4Right ["id"]
    ∧ lookupName c4Left.cols (c4Left.rows.getD 0 []) "v" = none
    ∧ lookupName c4Right.cols (c4Right.rows.getD 0 []) "v" = none
    ∧ (compareRecordsInBoth c4Left.cols ["id"]
        (splitBoth (joinTables c4Left c4Right ["id"]))
        = some (specComparisonTable c4Left c4Right ["id"])
      ∧ specFlagsRow c4Left c4Right ["id"] (c4Left.rows.getD 0 [])
          (c4Right.rows.getD 0 [])
          ∈ (specComparisonTable c4Left c4Right ["id"]).rows
      ∧ lookupName ("comparison" :: c4Left.cols)
          (specFlagsRow c4Left c4Right ["id"] (c4Left.rows.getD 0 [])
            (c4Right.rows.getD 0 [])) "v"
        = some (Val.bool true)) :=
  ⟨by decide, by decide, by decide,
    c4_both_null_flag_true c4Left c4Right ["id"] (by decide) (by decide)
      (by decide) (by decide) _ (by decide) _ (by decide) (by decide)
      "v" (by decide) (by decide) (by decide) (by decide)⟩

/-- Witness for C6 (amended): on the clean spec §8 scenario both partitions
equal their specification slices. -/
theorem c6_witness :
    ValidInput exL exR ["id"] ∧ CleanCols exL.cols
    ∧ (splitLeftOnly (joinTables exL exR ["id"]) ["id"]
        = specLeftOnlySlice exL exR ["id"]
      ∧ splitRightOnly (joinTables exL exR ["id"]) ["id"]
        = specRightOnlySlice exL exR ["id"]) :=
  ⟨by decide, by decide,
    c6_amended_split_slices exL exR ["id"] (by decide) (by decide)⟩

theorem flatMap_singleton_eq {α β : Type} (l : List α) (g : α → β) :
    (l.flatMap fun x => [g x]) = l.map g := by
  induction l with
  | nil => rfl
  | cons a as ih => simp only [List.flatMap_cons, List.map_cons, ih]; rfl

/-- Comparing a row against itself, the right-side presentation value is the
left one. -/
theorem specRightVal_self (t : Table) (pks : List String)
    (lr : List (Option Val)) (c : String) :
    specRightVal t t pks lr lr c = fillCell (lookupName t.cols lr c) := by
  unfold specRightVal
  split <;> rfl

theorem eqCell_fill_self (v : Option Val) :
    eqCell (fillCell v) (fillCell v) = true := by
  cases v <;> simp [eqCell, fillCell]

/-- C7 (amended): corrected as stated (the pipeline errors on an empty table
and on suffix-colliding column names, see the counterexample); for a
non-empty table with clean column names, compared against an exact copy of
itself, the pipeline succeeds with empty `left_only` and `right_only`
partitions and one `comparison_result` row per table row in which every
column's flag — including columns null on both sides — is `true`. -/
theorem c7_amended_self_comparison (t : Table) (pks : List String)
    (h : ValidInput t t pks) (hcl : CleanCols t.cols)
    (hcomp : "comparison" ∉ t.cols) (hne : t.rows ≠ []) :
    ∃ cdf, runComparison t t pks
        = some (splitLeftOnly (joinTables t t pks) pks,
            splitRightOnly (joinTables t t pks) pks, cdf)
      ∧ (splitLeftOnly (joinTables t t pks) pks).rows = []
      ∧ (splitRightOnly (joinTables t t pks) pks).rows = []
      ∧ (cdf.rows.filter fun r =>
            decide (lookupName cdf.cols r "comparison"
              = some (Val.str "comparison_result"))).length = t.rows.length
      ∧ ∀ r ∈ cdf.rows,
          lookupName cdf.cols r "comparison" = some (Val.str "comparison_result") →
            ∀ c ∈ t.cols, lookupName cdf.cols r c = some (Val.bool true) := by
  obtain ⟨hcolseq, hdt, ndL, ndR⟩ := validate_ok_facts t t pks h.2.2.2.2.2
  have hL := h.1
  have hsub := h.2.2.1
  have hpnd := h.2.2.2.1
  have hm := h.2.2.2.2.1
  have hms : ∀ lr ∈ t.rows,
      (t.rows.filter fun rr =>
        decide (keyOf t.cols pks rr = keyOf t.cols pks lr)) = [lr] :=
    fun lr hlr => filter_key_self_singleton t.rows (keyOf t.cols pks) lr ndL hlr
  rcases List.exists_mem_of_ne_nil t.rows hne with ⟨lr₀, hlr₀⟩
  have hBne : (splitBoth (joinTables t t pks)).rows ≠ [] := by
    apply List.ne_nil_of_mem (a := mkBothRow t.cols pks lr₀ lr₀)
    rw [show (splitBoth (joinTables t t pks)).rows
      = (filterTag (joinTables t t pks) "both").rows from rfl]
    rw [filterTag_join_both t t pks hL hm]
    exact List.mem_flatMap.mpr ⟨lr₀, hlr₀,
      List.mem_map_of_mem _ (List.mem_filter.mpr ⟨hlr₀, by simp⟩)⟩
  have hcmp := compare_shape t t pks h hcl hcomp
  rw [List.isEmpty_eq_false.mpr hBne, if_neg Bool.false_ne_true] at hcmp
  have hrows : (rawComparisonTable t t pks).rows
      = t.rows.flatMap fun lr =>
          [some (Val.str "left_table") :: t.cols.map (lookupName t.cols
            ((pks ++ nonKeys t.cols pks).map
              fun c => fillCell (lookupName t.cols lr c))),
           some (Val.str "right_table") :: t.cols.map (lookupName t.cols
            ((pks ++ nonKeys t.cols pks).map (specRightVal t t pks lr lr))),
           some (Val.str "comparison_result") :: t.cols.map (lookupName t.cols
            ((pks ++ nonKeys t.cols pks).map fun c =>
              some (Val.bool (eqCell (fillCell (lookupName t.cols lr c))
                (specRightVal t t pks lr lr c)))))] := by
    show (t.rows.flatMap _) = _
    apply List.flatMap_congr
    intro lr hlr
    rw [hms lr hlr]
    rfl
  have hcols : (rawComparisonTable t t pks).cols = "comparison" :: t.cols := rfl
  refine ⟨rawComparisonTable t t pks, ?_, ?_, ?_, ?_, ?_⟩
  · unfold runComparison
    rw [h.2.2.2.2.2]
    show (compareRecordsInBoth t.cols pks (splitBoth (joinTables t t pks))).map
        (fun cdf => (splitLeftOnly (joinTables t t pks) pks,
          splitRightOnly (joinTables t t pks) pks, cdf))
      = some (splitLeftOnly (joinTables t t pks) pks,
          splitRightOnly (joinTables t t pks) pks, rawComparisonTable t t pks)
    rw [hcmp]
    rfl
  · simp only [splitLeftOnly, selectCols]
    rw [filterTag_join_left_only t t pks hL hm]
    have hfilter : (t.rows.filter fun lr =>
        (t.rows.filter fun rr =>
          decide (keyOf t.cols pks rr = keyOf t.cols pks lr)).isEmpty) = [] :=
      List.filter_eq_nil_iff.mpr (fun lr hlr => by
        rw [hms lr hlr]
        simp)
    rw [hfilter]
    rfl
  · simp only [splitRightOnly, selectCols]
    rw [filterTag_join_right_only t t pks hL hm]
    have hfilter : (t.rows.filter fun rr =>
        !decide (keyOf t.cols pks rr ∈ t.rows.map (keyOf t.cols pks))) = [] :=
      List.filter_eq_nil_iff.mpr (fun rr hrr => by
        simp [List.mem_map_of_mem (keyOf t.cols pks) hrr])
    rw [hfilter]
    rfl
  · rw [hcols, hrows, filter_flatMap_eq]
    have hper : ∀ lr ∈ t.rows,
        ([some (Val.str "left_table") :: t.cols.map (lookupName t.cols
            ((pks ++ nonKeys t.cols pks).map
              fun c => fillCell (lookupName t.cols lr c))),
          some (Val.str "right_table") :: t.cols.map (lookupName t.cols
            ((pks ++ nonKeys t.cols pks).map (specRightVal t t pks lr lr))),
          some (Val.str "comparison_result") :: t.cols.map (lookupName t.cols
            ((pks ++ nonKeys t.cols pks).map fun c =>
              some (Val.bool (eqCell (fillCell (lookupName t.cols lr c))
                (specRightVal t t pks lr lr c)))))].filter fun r =>
            decide (lookupName ("comparison" :: t.cols) r "comparison"
              = some (Val.str "comparison_result")))
        = [some (Val.str "comparison_result") :: t.cols.map (lookupName t.cols
            ((pks ++ nonKeys t.cols pks).map fun c =>
              some (Val.bool (eqCell (fillCell (lookupName t.cols lr c))
                (specRightVal t t pks lr lr c)))))] := by
      intro lr hlr
      rw [List.filter_cons_of_neg (by simp [lookupName])]
      rw [List.filter_cons_of_neg (by simp [lookupName])]
      rw [List.filter_cons_of_pos (by simp [lookupName])]
      rfl
    rw [List.flatMap_congr hper, flatMap_singleton_eq, List.length_map]
  · intro r hr hflag c hc
    rw [hcols] at hflag ⊢
    rw [hrows] at hr
    rcases List.mem_flatMap.mp hr with ⟨lr, hlr, hrmem⟩
    simp only [List.mem_cons, List.mem_singleton, List.not_mem_nil, or_false] at hrmem
    rcases hrmem with h1 | h2 | h3
    · rw [h1] at hflag
      simp [lookupName] at hflag
    · rw [h2] at hflag
      simp [lookupName] at hflag
    · rw [h3]
      rw [lookupName_cons_ne "comparison" t.cols _ _ c (fun he => hcomp (he ▸ hc))]
      rw [lookupName_map_self t.cols _ c hc]
      apply lookupName_of_const t.cols _ (some (Val.bool true)) c hc
      · intro x hx
        rcases List.mem_map.mp hx with ⟨c₂, _, he⟩
        rw [← he, specRightVal_self, eqCell_fill_self]
      · rw [List.length_map, List.length_append]
        exact length_pks_add_nonKeys t.cols pks hpnd hL.1 hsub

/-- Witness for C7 (amended): the two-row table `exL` compared against
itself. -/
theorem c7_witness :
    ValidInput exL exL ["id"] ∧ CleanCols exL.cols ∧ "comparison" ∉ exL.cols
    ∧ exL.rows ≠ []
    ∧ (∃ cdf, runComparison exL exL ["id"]
        = some (splitLeftOnly (joinTables exL exL ["id"]) ["id"],
            splitRightOnly (joinTables exL exL ["id"]) ["id"], cdf)
      ∧ (splitLeftOnly (joinTables exL exL ["id"]) ["id"]).rows = []
      ∧ (splitRightOnly (joinTables exL exL ["id"]) ["id"]).rows = []
      ∧ (cdf.rows.filter fun r =>
            decide (lookupName cdf.cols r "comparison"
              = some (Val.str "comparison_result"))).length = exL.rows.length
      ∧ ∀ r ∈ cdf.rows,
          lookupName cdf.cols r "comparison" = some (Val.str "comparison_result") →
            ∀ c ∈ exL.cols, lookupName cdf.cols r c = some (Val.bool true)) :=
  ⟨by decide, by decide, by decide, by decide,
    c7_amended_self_comparison exL ["id"] (by decide) (by decide) (by decide)
      (by decide)⟩

end TableComparator